import Mathlib

/-!
Verification development for the SEP-scraper HTML-to-Markdown conversion pipeline.

The Python sources are shallowly embedded: the parsed HTML tree becomes the
inductive type `Node`; each converter method becomes a Lean function of the same
name; code that can raise at run time (in particular the attribute lookup
`self._text_converter._convert_inline`, an attribute `TextConverter` does not
define) is embedded as `Except String`-valued code.
-/

/-- ASCII whitespace, as matched by Python's default `str.strip` and the regex
class `\s` on the ASCII inputs handled here. -/
def isPySpace (c : Char) : Bool :=
  c = ' ' || c = '\t' || c = '\n' || c = '\r' || c = '\x0b' || c = '\x0c'

lemma dropWhile_length_le (p : Char → Bool) (l : List Char) :
    (l.dropWhile p).length ≤ l.length := by
  induction l with
  | nil => simp [List.dropWhile]
  | cons c rest ih =>
    by_cases h : p c
    · simp only [List.dropWhile, h]
      exact Nat.le_succ_of_le ih
    · simp [List.dropWhile, h]

instance {α β : Type} [DecidableEq α] [DecidableEq β] : DecidableEq (Except α β) := fun a b =>
  match a, b with
  | .ok x, .ok y =>
    if h : x = y then isTrue (by rw [h]) else isFalse (fun hc => h (by injection hc))
  | .error x, .error y =>
    if h : x = y then isTrue (by rw [h]) else isFalse (fun hc => h (by injection hc))
  | .ok _, .error _ => isFalse (fun hc => by injection hc)
  | .error _, .ok _ => isFalse (fun hc => by injection hc)

/-- The scan of `re.sub(r"\s+", " ", ·)`: the flag records whether the scan
is inside a whitespace run (whose first character already emitted the single
replacement space). -/
def squashAux : Bool → List Char → List Char
  | _, [] => []
  | inRun, c :: rest =>
    if isPySpace c then
      if inRun then squashAux true rest else ' ' :: squashAux true rest
    else c :: squashAux false rest

/-- `re.sub(r"\s+", " ", ·)`: replace every maximal whitespace run by one space. -/
def squashWsL (l : List Char) : List Char := squashAux false l

/-- Python `str.strip()` on a character list. -/
def pyStripL (l : List Char) : List Char :=
  (((l.dropWhile isPySpace).reverse.dropWhile isPySpace)).reverse

def squashWs (s : String) : String := ⟨squashWsL s.data⟩

def pyStrip (s : String) : String := ⟨pyStripL s.data⟩

/-- The whitespace-collapse used throughout the pipeline:
`re.sub(r"\s+", " ", text).strip()`. -/
def collapseWs (s : String) : String := pyStrip (squashWs s)

/-- A parsed HTML node: a text node, or an element with a tag name, attributes
and ordered children. -/
inductive Node where
  | text : String → Node
  | elem : String → List (String × String) → List Node → Node

/-- Children of a node (a text node has none). -/
def Node.childrenL : Node → List Node
  | .text _ => []
  | .elem _ _ cs => cs

mutual

/-- Size of a node, used as fuel for recursions over the tree. -/
def nodeSize : Node → Nat
  | .text _ => 1
  | .elem _ _ cs => 1 + nodeSizeL cs

def nodeSizeL : List Node → Nat
  | [] => 1
  | n :: rest => 1 + nodeSize n + nodeSizeL rest

end

/-- Attribute lookup, `element.get(key)`. -/
def attrGet (attrs : List (String × String)) (k : String) : Option String :=
  (attrs.find? (fun p => p.1 == k)).map (·.2)

def Node.attr : Node → String → Option String
  | .text _, _ => none
  | .elem _ attrs _, k => attrGet attrs k

/-- `element.get(key, "")`. -/
def Node.attrD (n : Node) (k : String) : String := (n.attr k).getD ""

def Node.tagIs : Node → String → Bool
  | .text _, _ => false
  | .elem t _ _, t' => t == t'

def Node.isElem : Node → Bool
  | .text _ => false
  | .elem _ _ _ => true

/-! Recursions over the node tree take a fuel argument initialized to the
tree size: every recursive call goes into a strict subtree, so the fuel is
always sufficient and the base case is never reached. -/

/-- `element.get_text()`: concatenation of all descendant text nodes. -/
def getTextF : Nat → List Node → String
  | 0, _ => ""
  | _ + 1, [] => ""
  | fuel + 1, .text s :: rest => s ++ getTextF fuel rest
  | fuel + 1, .elem _ _ cs :: rest => getTextF fuel cs ++ getTextF fuel rest

def getTextL (l : List Node) : String := getTextF (nodeSizeL l) l

def Node.get_text (n : Node) : String := getTextL [n]

/-- `element.get_text(strip=True)`: each text node stripped, then concatenated. -/
def getTextStripF : Nat → List Node → String
  | 0, _ => ""
  | _ + 1, [] => ""
  | fuel + 1, .text s :: rest => pyStrip s ++ getTextStripF fuel rest
  | fuel + 1, .elem _ _ cs :: rest => getTextStripF fuel cs ++ getTextStripF fuel rest

def getTextStripL (l : List Node) : String := getTextStripF (nodeSizeL l) l

def Node.getTextStrip (n : Node) : String := getTextStripL [n]

/-- `soup.find(pred)`: first descendant (document pre-order) satisfying `p`. -/
def findFirstF (p : Node → Bool) : Nat → List Node → Option Node
  | 0, _ => none
  | _ + 1, [] => none
  | fuel + 1, n :: rest =>
    if p n then some n
    else
      match findFirstF p fuel n.childrenL with
      | some m => some m
      | none => findFirstF p fuel rest

def findFirstL (p : Node → Bool) (l : List Node) : Option Node := findFirstF p (nodeSizeL l) l

def Node.find (n : Node) (p : Node → Bool) : Option Node := findFirstL p n.childrenL

/-- `soup.find_all(pred)`: all matching descendants in document pre-order. -/
def findAllF (p : Node → Bool) : Nat → List Node → List Node
  | 0, _ => []
  | _ + 1, [] => []
  | fuel + 1, n :: rest =>
    (if p n then [n] else []) ++ findAllF p fuel n.childrenL ++ findAllF p fuel rest

def findAllL (p : Node → Bool) (l : List Node) : List Node := findAllF p (nodeSizeL l) l

def Node.findAll (n : Node) (p : Node → Bool) : List Node := findAllL p n.childrenL

mutual

/-- Structural equality of nodes; BeautifulSoup tags compare structurally
(same name, attributes and contents), which is what `tr != header_row` uses. -/
def nodeBeqF : Nat → Node → Node → Bool
  | 0, _, _ => false
  | _ + 1, .text a, .text b => a == b
  | fuel + 1, .elem t₁ a₁ c₁, .elem t₂ a₂ c₂ =>
    t₁ == t₂ && a₁ == a₂ && nodeListBeqF fuel c₁ c₂
  | _ + 1, _, _ => false

def nodeListBeqF : Nat → List Node → List Node → Bool
  | 0, _, _ => false
  | _ + 1, [], [] => true
  | fuel + 1, x :: xs, y :: ys => nodeBeqF fuel x y && nodeListBeqF fuel xs ys
  | _ + 1, _, _ => false

end

def Node.beq (a b : Node) : Bool := nodeBeqF (nodeSize a) a b

/-- Case-insensitive ASCII lowering, Python `str.lower()` for ASCII inputs. -/
def pyLower (s : String) : String := ⟨s.data.map Char.toLower⟩

/-- Python `str.startswith`. -/
def pyStartsWith (s pre : String) : Bool := pre.data.isPrefixOf s.data

/-- Python `int(s)` restricted to plain digit strings, `none` otherwise
(where `int` raises `ValueError`). -/
def parseNatDigits (l : List Char) : Option Nat :=
  if !l.isEmpty && l.all Char.isDigit then
    some (l.foldl (fun a c => a * 10 + (c.toNat - 48)) 0)
  else none

def joinNL (ss : List String) : String := String.intercalate "\n" ss

namespace TextConverter

/-- `TextConverter.convert_inline`, one child's contribution.  The element case
computes the stripped inline conversion of that element's own children and
wraps it according to the tag, mirroring the `if/elif` chain in
`text.py` (`em`/`i`, `strong`/`b`, `a`, `sup`, `sub`, `br`, `code`, recursion
into anything else that has children). -/
def inlinePartsF : Nat → List Node → String
  | 0, _ => ""
  | _ + 1, [] => ""
  | fuel + 1, .text s :: rest => squashWs s ++ inlinePartsF fuel rest
  | fuel + 1, .elem tag attrs cs :: rest =>
    let inner := pyStrip (inlinePartsF fuel cs)
    (if tag = "em" ∨ tag = "i" then "*" ++ inner ++ "*"
     else if tag = "strong" ∨ tag = "b" then "**" ++ inner ++ "**"
     else if tag = "a" then
       let href := (attrGet attrs "href").getD ""
       if href ≠ "" then "[" ++ inner ++ "](" ++ href ++ ")" else inner
     else if tag = "sup" then inner
     else if tag = "sub" then inner
     else if tag = "br" then "\n"
     else if tag = "code" then "`" ++ getTextL cs ++ "`"
     else inner) ++ inlinePartsF fuel rest

def inlineParts (l : List Node) : String := inlinePartsF (nodeSizeL l) l

/-- `TextConverter.convert_inline`: join the children's parts, then strip. -/
def convert_inline (e : Node) : String := pyStrip (inlineParts e.childrenL)

/-- `TextConverter._convert_heading`. -/
def _convert_heading (e : Node) : String :=
  match e with
  | .text _ => ""
  | .elem tag _ _ =>
    let level := (parseNatDigits (tag.data.drop 1)).getD 0
    String.mk (List.replicate level '#') ++ " " ++ convert_inline e

/-- Splits a list item's children into its own inline parts and the nested
list (the last `ul`/`ol` child, as in `text.py:_convert_list` where the
variable is reassigned on each list child). -/
def liSplit : List Node → List String × Option Node
  | [] => ([], none)
  | .text s :: rest => (pyStrip s :: (liSplit rest).1, (liSplit rest).2)
  | .elem t a cc :: rest =>
    if t = "ul" ∨ t = "ol" then ((liSplit rest).1, (liSplit rest).2 <|> some (.elem t a cc))
    else (convert_inline (.elem t a cc) :: (liSplit rest).1, (liSplit rest).2)

lemma liSplit_mem : ∀ (cs : List Node) (n : Node), (liSplit cs).2 = some n → n ∈ cs := by
  intro cs
  induction cs with
  | nil => intro n h; simp [liSplit] at h
  | cons c rest ih =>
    intro n h
    match c with
    | .text s =>
      simp only [liSplit] at h
      exact List.mem_cons_of_mem _ (ih n h)
    | .elem t a cc =>
      by_cases ht : t = "ul" ∨ t = "ol"
      · simp only [liSplit, ht, if_true] at h
        rcases ho : (liSplit rest).2 with _ | m
        · rw [ho] at h
          simp at h
          simp [h]
        · rw [ho] at h
          simp at h
          exact List.mem_cons_of_mem _ (ih n (by rw [ho, h]))
      · simp only [liSplit, ht, if_false] at h
        exact List.mem_cons_of_mem _ (ih n h)

def joinSpace (ss : List String) : String := String.intercalate " " ss

/-- The loop body of `TextConverter._convert_list`: direct `li` children only,
a counter for ordered lists, nested list rendered after the item's own line. -/
def listItemsF : Nat → Bool → Nat → Nat → List Node → List String
  | 0, _, _, _, _ => []
  | _ + 1, _, _, _, [] => []
  | fuel + 1, ordered, depth, counter, c :: rest =>
    match c with
    | .text _ => listItemsF fuel ordered depth counter rest
    | .elem t _ cs =>
      if t = "li" then
        let itemText := joinSpace (((liSplit cs).1).filter (fun s => s ≠ ""))
        let indent := String.mk (List.replicate (2 * depth) ' ')
        let line :=
          if ordered then indent ++ toString counter ++ ". " ++ itemText
          else indent ++ "- " ++ itemText
        let nestedLines :=
          match (liSplit cs).2 with
          | none => []
          | some n => [joinNL (listItemsF fuel (n.tagIs "ol") (depth + 1) 1 n.childrenL)]
        (line :: nestedLines) ++ listItemsF fuel ordered depth (counter + 1) rest
      else listItemsF fuel ordered depth counter rest

/-- `TextConverter._convert_list`. -/
def _convert_list (e : Node) (ordered : Bool) (depth : Nat) : String :=
  match e with
  | .text _ => ""
  | .elem _ _ cs => joinNL (listItemsF (nodeSizeL cs) ordered depth 1 cs)

/-- `TextConverter._convert_blockquote`'s line accumulation. -/
def blockquoteLines : List Node → List String
  | [] => []
  | c :: rest =>
    match c with
    | .text s => if pyStrip s ≠ "" then ("> " ++ pyStrip s) :: blockquoteLines rest else blockquoteLines rest
    | .elem t _ _ =>
      if t = "p" then ("> " ++ convert_inline c) :: blockquoteLines rest
      else blockquoteLines rest

def _convert_blockquote (e : Node) : String := joinNL (blockquoteLines e.childrenL)

def _convert_paragraph (e : Node) : String := convert_inline e

def isHeadingTag (t : String) : Bool :=
  t == "h1" || t == "h2" || t == "h3" || t == "h4" || t == "h5" || t == "h6"

/-- `TextConverter.convert`: block-level dispatch by tag. -/
def convert (e : Node) : String :=
  match e with
  | .text _ => convert_inline e
  | .elem tag _ _ =>
    if isHeadingTag tag then _convert_heading e
    else if tag = "p" then _convert_paragraph e
    else if tag = "ul" then _convert_list e false 0
    else if tag = "ol" then _convert_list e true 0
    else if tag = "blockquote" then _convert_blockquote e
    else convert_inline e

/-- The attribute names `class TextConverter` defines in `text.py`.  The calls
`self._text_converter._convert_inline(...)` in `tables.py` and `footnotes.py`
look up a name that is not among them and therefore raise `AttributeError`. -/
def attributeNames : List String :=
  ["convert", "_convert_heading", "_convert_paragraph", "convert_inline",
   "_convert_list", "_convert_blockquote"]

end TextConverter

/-- The run-time error raised by looking up `_convert_inline` on a
`TextConverter` instance. -/
def attributeErrorConvertInline : String :=
  "AttributeError: TextConverter object has no attribute _convert_inline"

/-- The scan of `re.sub(r"\n+", " ", ·)`, flag as in `squashAux`. -/
def squashNLAux : Bool → List Char → List Char
  | _, [] => []
  | inRun, c :: rest =>
    if c = '\n' then
      if inRun then squashNLAux true rest else ' ' :: squashNLAux true rest
    else c :: squashNLAux false rest

/-- `re.sub(r"\n+", " ", ·)`: replace every maximal newline run by one space. -/
def squashNLRunsL (l : List Char) : List Char := squashNLAux false l

def squashNLRuns (s : String) : String := ⟨squashNLRunsL s.data⟩

/-- `content.replace("|", "\\|")`. -/
def escapePipes (s : String) : String :=
  ⟨s.data.flatMap (fun c => if c = '|' then ['\\', '|'] else [c])⟩

/-- Python `str.rstrip()`. -/
def pyRStrip (s : String) : String := ⟨(s.data.reverse.dropWhile isPySpace).reverse⟩

namespace TableConverter

def isCellTag (n : Node) : Bool := n.tagIs "th" || n.tagIs "td"

/-- `TableConverter._convert_cell`.  The method's first statement is
`self._text_converter._convert_inline(cell)`; `TextConverter` defines no
attribute of that name (see `TextConverter.attributeNames`), so the call
raises `AttributeError` before any of the cell post-processing runs. -/
def _convert_cell (cell : Node) : Except String String :=
  if TextConverter.attributeNames.contains "_convert_inline" then
    let content := TextConverter.convert_inline cell
    let content := squashNLRuns content
    let content := escapePipes content
    .ok (collapseWs content)
  else
    .error attributeErrorConvertInline

def pipeRow (cells : List String) : String :=
  "| " ++ String.intercalate " | " cells ++ " |"

def sepRow (ncols : Nat) : String :=
  "|" ++ String.intercalate "|" (List.replicate ncols "---") ++ "|"

/-- `TableConverter.convert`: header-row detection (`thead`, else the first
`tr` containing a `th`), body-row collection (`tbody`, else every `tr` other
than the header row, compared structurally as BeautifulSoup does), then the
pipe rows.  Cell conversion is `Except`-valued because `_convert_cell` can
raise. -/
def convert (table : Node) : Except String String := do
  let header_row : Option Node :=
    match table.find (·.tagIs "thead") with
    | some thead => thead.find (·.tagIs "tr")
    | none =>
      (table.findAll (·.tagIs "tr")).find? (fun tr => (tr.find (·.tagIs "th")).isSome)
  let body_rows : List Node :=
    match table.find (·.tagIs "tbody") with
    | some tbody => tbody.findAll (·.tagIs "tr")
    | none =>
      (table.findAll (·.tagIs "tr")).filter (fun tr =>
        match header_row with
        | some hr => !(Node.beq tr hr)
        | none => true)
  match header_row with
  | some hr => do
    let headers ← (hr.findAll isCellTag).mapM _convert_cell
    let bodyCells ← body_rows.mapM (fun tr => (tr.findAll isCellTag).mapM _convert_cell)
    let bodyLines := (bodyCells.filter (fun cs => !cs.isEmpty)).map pipeRow
    pure (joinNL ([pipeRow headers, sepRow headers.length] ++ bodyLines))
  | none =>
    match body_rows with
    | [] => pure (joinNL [])
    | first :: rest => do
      let cells ← (first.findAll isCellTag).mapM _convert_cell
      let bodyCells ← rest.mapM (fun tr => (tr.findAll isCellTag).mapM _convert_cell)
      let bodyLines := (bodyCells.filter (fun cs => !cs.isEmpty)).map pipeRow
      pure (joinNL ([pipeRow cells, sepRow cells.length] ++ bodyLines))

end TableConverter

/-- Contiguous-substring test on character lists. -/
def isInfixB (pat : List Char) : List Char → Bool
  | [] => pat.isEmpty
  | l@(_ :: rest) => pat.isPrefixOf l || isInfixB pat rest

def strContains (s sub : String) : Bool := isInfixB sub.data s.data

/-- First maximal digit run in a character list, `re.search(r"(\d+)", ·)`. -/
def firstDigitRun : List Char → Option String
  | [] => none
  | c :: rest =>
    if c.isDigit then some ⟨c :: rest.takeWhile Char.isDigit⟩
    else firstDigitRun rest

/-- Leftmost split on a pattern: `some (before, after)` when the pattern
occurs, scanning left to right. -/
def splitFirst (pat : List Char) : List Char → Option (List Char × List Char)
  | [] => if pat.isEmpty then some ([], []) else none
  | c :: rest =>
    if pat.isPrefixOf (c :: rest) then some ([], (c :: rest).drop pat.length)
    else
      match splitFirst pat rest with
      | none => none
      | some (pre, after) => some (c :: pre, after)

lemma splitFirst_spec :
    ∀ (l pat pre after : List Char),
      splitFirst pat l = some (pre, after) → l = pre ++ pat ++ after := by
  intro l
  induction l with
  | nil =>
    intro pat pre after h
    by_cases hp : pat.isEmpty
    · simp only [splitFirst, hp, if_true] at h
      simp only [Option.some.injEq, Prod.mk.injEq] at h
      have := List.isEmpty_iff.mp hp
      simp [← h.1, ← h.2, this]
    · simp [splitFirst, hp] at h
  | cons c rest ih =>
    intro pat pre after h
    by_cases hm : pat.isPrefixOf (c :: rest) = true
    · simp only [splitFirst, hm, if_true] at h
      simp only [Option.some.injEq, Prod.mk.injEq] at h
      obtain ⟨h1, h2⟩ := h
      obtain ⟨t, ht⟩ := List.isPrefixOf_iff_prefix.mp hm
      have hdrop : (c :: rest).drop pat.length = t := by rw [← ht, List.drop_left]
      rw [← h1, ← h2, hdrop, ← ht]
      simp
    · simp only [splitFirst, if_neg hm] at h
      split at h
      · exact absurd h (by simp)
      · next pre2 after2 hrec =>
        simp only [Option.some.injEq, Prod.mk.injEq] at h
        obtain ⟨h1, h2⟩ := h
        have hre := ih pat pre2 after2 hrec
        rw [← h1, ← h2]
        simp [hre]

lemma splitFirst_after_le (l pat pre after : List Char)
    (h : splitFirst pat l = some (pre, after)) :
    after.length ≤ l.length := by
  have := splitFirst_spec l pat pre after h
  subst this
  simp
  omega

namespace FootnoteConverter

/-- `FootnoteConverter._convert_element`: renders one child element with
explicit markup.  Its first statement is the attribute lookup
`self._text_converter._convert_inline(element)`, which raises
`AttributeError` (the attribute does not exist on `TextConverter`). -/
def _convert_element (element : Node) : Except String String :=
  if TextConverter.attributeNames.contains "_convert_inline" then
    let inner := TextConverter.convert_inline element
    match element with
    | .text _ => .ok inner
    | .elem tag attrs _ =>
      if tag = "em" ∨ tag = "i" then .ok ("*" ++ inner ++ "*")
      else if tag = "strong" ∨ tag = "b" then .ok ("**" ++ inner ++ "**")
      else if tag = "code" then .ok ("`" ++ inner ++ "`")
      else if tag = "a" then .ok ("[" ++ inner ++ "](" ++ (attrGet attrs "href").getD "" ++ ")")
      else .ok inner
  else
    .error attributeErrorConvertInline

/-- A `div` whose `id` attribute matches `re.compile(r"note", re.I)`. -/
def idMatchesNote (n : Node) : Bool :=
  n.tagIs "div" &&
    (match n.attr "id" with
     | some v => strContains (pyLower v) "note"
     | none => false)

/-- A heading `h2`/`h3`/`h4` whose stripped text matches `^notes?$` (case
insensitive). -/
def isNotesHeading (n : Node) : Bool :=
  (n.tagIs "h2" || n.tagIs "h3" || n.tagIs "h4") &&
    (let t := pyLower n.getTextStrip
     t == "note" || t == "notes")

/-- Pre-order search for the parent of the first notes heading
(`heading.parent` in the source). -/
def findNHPF : Nat → Node → List Node → Option Node
  | 0, _, _ => none
  | _ + 1, _, [] => none
  | fuel + 1, p, n :: rest =>
    if isNotesHeading n then some p
    else
      match findNHPF fuel n n.childrenL with
      | some r => some r
      | none => findNHPF fuel p rest

def findNHP (p : Node) (l : List Node) : Option Node := findNHPF (nodeSizeL l) p l

/-- The notes-container search of `_extract_definitions`: a `div` with a
note-like `id`, else the parent of a heading reading "note(s)". -/
def findNotesSection (soup : Node) : Option Node :=
  match findFirstL idMatchesNote soup.childrenL with
  | some sec => some sec
  | none => findNHP soup soup.childrenL

/-- `p`/`li` elements whose `id` matches `re.compile(r"note|fn")`. -/
def isFootnoteDefElem (n : Node) : Bool :=
  (n.tagIs "p" || n.tagIs "li") &&
    (match n.attr "id" with
     | some v => strContains v "note" || strContains v "fn"
     | none => false)

/-- A child anchor that is a back-reference: `href` starting with `#ref`, or
visible stripped text exactly `^`. -/
def isBackRefAnchor (n : Node) : Bool :=
  match n with
  | .elem "a" attrs _ =>
    pyStartsWith ((attrGet attrs "href").getD "") "#ref" || n.getTextStrip == "^"
  | _ => false

/-- The child loop of `_extract_definitions`: back-reference anchors skipped,
text children kept verbatim, other element children rendered through
`_convert_element` (which raises). -/
def defContentParts : List Node → Except String (List String)
  | [] => .ok []
  | child :: rest =>
    if isBackRefAnchor child then defContentParts rest
    else
      match child with
      | .text s => do
        let ps ← defContentParts rest
        pure (s :: ps)
      | .elem _ _ _ => do
        let c ← _convert_element child
        let ps ← defContentParts rest
        pure (c :: ps)

/-- Python dict assignment `d[k] = v` on an insertion-ordered association
list. -/
def dictUpsert (d : List (String × String)) (k v : String) : List (String × String) :=
  if d.any (·.1 == k) then d.map (fun p => if p.1 == k then (k, v) else p)
  else d ++ [(k, v)]

def dictGet (d : List (String × String)) (k : String) : String :=
  ((d.find? (·.1 == k)).map (·.2)).getD ""

def extractLoop : List Node → List (String × String) → Except String (List (String × String))
  | [], acc => .ok acc
  | e :: rest, acc =>
    match firstDigitRun (e.attrD "id").data with
    | none => extractLoop rest acc
    | some num => do
      let parts ← defContentParts e.childrenL
      let content := pyStrip (String.join parts)
      extractLoop rest (dictUpsert acc num content)

/-- `FootnoteConverter._extract_definitions`, run once at construction: find
the notes container and collect the keyed definitions.  A missing container
yields the empty map. -/
def _extract_definitions (soup : Node) : Except String (List (String × String)) :=
  match findNotesSection soup with
  | none => .ok []
  | some sec => extractLoop (sec.findAll isFootnoteDefElem) []

/-- `FootnoteConverter.convert_reference`. -/
def convert_reference (element : Node) : String :=
  match element.find (·.tagIs "a") with
  | none => element.getTextStrip
  | some anchor =>
    let href := anchor.attrD "href"
    match firstDigitRun href.data with
    | some num => "[^" ++ num ++ "]"
    | none =>
      match firstDigitRun anchor.get_text.data with
      | some num => "[^" ++ num ++ "]"
      | none => element.getTextStrip

/-- Sort key `int(k)` for digit-string keys. -/
def keyVal (k : String) : Nat := (parseNatDigits k.data).getD 0

/-- The comparison `int(a) <= int(b)` used by `sorted(keys, key=int)`. -/
def keyLE (a b : String) : Prop := keyVal a ≤ keyVal b

instance : DecidableRel keyLE := fun a b => Nat.decLe _ _

/-- `sorted(keys, key=int)` for digit-string keys (Python's sort is stable;
on keys with pairwise distinct numeric values any stable sort agrees with
this insertion sort). -/
def sortedKeys (keys : List String) : List String :=
  keys.insertionSort keyLE

/-- Python `str.split(sep)` for a non-empty separator: leftmost
non-overlapping occurrences; the fuel (one per split piece) is initialized
to the length of the input, which always suffices. -/
def pySplitSepF (sep : List Char) : Nat → List Char → List (List Char)
  | 0, l => [l]
  | fuel + 1, l =>
    match splitFirst sep l with
    | none => [l]
    | some (pre, after) => pre :: pySplitSepF sep fuel after

def pySplitSep (sep : String) (s : String) : List String :=
  (pySplitSepF sep.data (s.data.length + 1) s.data).map String.mk

/-- The per-definition lines of `format_definitions`: multi-paragraph bodies
put the first paragraph inline and the rest indented four spaces; a blank
line after every definition. -/
def defLines (d : List (String × String)) : List String → List String
  | [] => []
  | num :: ks =>
    let content := dictGet d num
    ((match pySplitSep "\n\n" content with
      | [] => ["[^" ++ num ++ "]: "]
      | first :: restL => ("[^" ++ num ++ "]: " ++ first) :: restL.map ("    " ++ ·)) ++ [""]) ++
      defLines d ks

/-- `FootnoteConverter.format_definitions`.  `sorted(keys, key=int)` calls
`int` on every key and raises `ValueError` on a non-digit key, hence the
`Except`. -/
def format_definitions (defs : List (String × String)) : Except String String :=
  if defs.isEmpty then .ok ""
  else
    let keys := defs.map (·.1)
    if keys.all (fun k => (parseNatDigits k.data).isSome) then
      .ok (pyRStrip (joinNL (defLines defs (sortedKeys keys))))
    else
      .error "ValueError: invalid literal for int"

end FootnoteConverter

namespace MathConverter

/-- A macro table row: name, expansion template, number of arguments
(insertion-ordered, as a Python dict iterates). -/
abbrev MacroTable := List (String × String × Nat)

/-- The scanning loop of `_extract_brace_arg` from the character after the
opening brace: depth counting on `{`/`}`, a backslash skipping the following
character; on success, the argument's characters and the characters after the
closing brace. -/
def braceScan : List Char → Nat → List Char → Option (List Char × List Char)
  | [], _, _ => none
  | c :: rest, depth, acc =>
    if c = '{' then braceScan rest (depth + 1) (c :: acc)
    else if c = '}' then
      if depth = 1 then some (acc.reverse, rest)
      else braceScan rest (depth - 1) (c :: acc)
    else if c = '\\' then
      match rest with
      | [] => none
      | d :: rest2 => braceScan rest2 depth (d :: c :: acc)
    else braceScan rest depth (c :: acc)

/-- `MathConverter._extract_brace_arg` at the head of a suffix: the suffix must
begin with `{`. -/
def _extract_brace_arg : List Char → Option (List Char × List Char)
  | '{' :: rest => braceScan rest 1 []
  | _ => none

lemma braceScan_spec_aux :
    ∀ (N : Nat) (l : List Char), l.length ≤ N →
      ∀ (depth : Nat) (acc : List Char) (content rest : List Char),
      braceScan l depth acc = some (content, rest) →
      ∃ mid, l = mid ++ '}' :: rest ∧ content = acc.reverse ++ mid := by
  intro N
  induction N with
  | zero =>
    intro l hl depth acc content rest h
    have : l = [] := List.eq_nil_of_length_eq_zero (Nat.le_zero.mp hl)
    subst this
    simp [braceScan.eq_def] at h
  | succ N ih =>
    intro l hl depth acc content rest h
    match l with
    | [] => simp [braceScan.eq_def] at h
    | c :: l' =>
      have hl' : l'.length ≤ N := by simp at hl; omega
      by_cases hc : c = '{'
      · rw [hc] at h
        rw [braceScan.eq_def] at h
        simp at h
        obtain ⟨mid, h1, h2⟩ := ih l' hl' (depth + 1) ('{' :: acc) content rest h
        exact ⟨'{' :: mid, by simp [hc, h1], by simp [h2]⟩
      · by_cases hc2 : c = '}'
        · by_cases hd : depth = 1
          · rw [hc2, hd] at h
            rw [braceScan.eq_def] at h
            simp at h
            exact ⟨[], by simp [hc2, ← h.2], by simp [← h.1]⟩
          · rw [hc2] at h
            rw [braceScan.eq_def] at h
            simp [hd] at h
            obtain ⟨mid, h1, h2⟩ := ih l' hl' (depth - 1) ('}' :: acc) content rest h
            exact ⟨'}' :: mid, by simp [hc2, h1], by simp [h2]⟩
        · by_cases hc3 : c = '\\'
          · rw [hc3] at h
            match l' with
            | [] => simp [braceScan.eq_def] at h
            | d :: l'' =>
              rw [braceScan.eq_def] at h
              simp at h
              have hl'' : l''.length ≤ N := by simp at hl; omega
              obtain ⟨mid, h1, h2⟩ := ih l'' hl'' depth (d :: '\\' :: acc) content rest h
              refine ⟨'\\' :: d :: mid, by simp [hc3, h1], by simp [h2]⟩
          · rw [braceScan.eq_def] at h
            simp [hc, hc2, hc3] at h
            obtain ⟨mid, h1, h2⟩ := ih l' hl' depth (c :: acc) content rest h
            exact ⟨c :: mid, by simp [h1], by simp [h2]⟩

lemma braceScan_spec (l : List Char) (depth : Nat) (acc : List Char) (content rest : List Char)
    (h : braceScan l depth acc = some (content, rest)) :
    ∃ mid, l = mid ++ '}' :: rest ∧ content = acc.reverse ++ mid :=
  braceScan_spec_aux l.length l (Nat.le_refl _) depth acc content rest h

lemma extract_brace_arg_spec (l content rest : List Char)
    (h : _extract_brace_arg l = some (content, rest)) :
    l = '{' :: content ++ '}' :: rest := by
  match l with
  | [] => simp [_extract_brace_arg] at h
  | c :: l' =>
    by_cases hc : c = '{'
    · subst hc
      simp only [_extract_brace_arg] at h
      obtain ⟨mid, h1, h2⟩ := braceScan_spec l' 1 [] content rest h
      simp only [List.reverse_nil, List.nil_append] at h2
      simp [h1, h2]
    · rw [_extract_brace_arg.eq_def] at h
      split at h
      · next rest0 heq =>
        injection heq with hch _
        exact absurd hch hc
      · exact absurd h (by simp)

lemma extract_brace_arg_length (l content rest : List Char)
    (h : _extract_brace_arg l = some (content, rest)) :
    rest.length < l.length := by
  have := extract_brace_arg_spec l content rest h
  subst this
  simp
  omega

/-- Whitespace skipped before each brace argument (`" \t\n"` in the source). -/
def isArgWs (c : Char) : Bool := c = ' ' || c = '\t' || c = '\n'

/-- The argument-collection loop of `_expand_macro_with_args`: skip
whitespace, extract one brace group, `num_args` times; `none` as soon as one
group cannot be extracted. -/
def extractArgs : Nat → List Char → Option (List String × List Char)
  | 0, l => some ([], l)
  | n + 1, l =>
    match _extract_brace_arg (l.dropWhile isArgWs) with
    | none => none
    | some (arg, rest) =>
      match extractArgs n rest with
      | none => none
      | some (args, rest') => some (String.mk arg :: args, rest')

lemma extractArgs_length :
    ∀ (n : Nat) (l : List Char) (args : List String) (rest : List Char),
      extractArgs n l = some (args, rest) → rest.length ≤ l.length := by
  intro n
  induction n with
  | zero =>
    intro l args rest h
    simp only [extractArgs, Option.some.injEq, Prod.mk.injEq] at h
    simp [← h.2]
  | succ n ih =>
    intro l args rest h
    simp only [extractArgs] at h
    split at h
    · exact absurd h (by simp)
    · next arg rest1 hb =>
      split at h
      · exact absurd h (by simp)
      · next args2 rest2 he =>
        simp only [Option.some.injEq, Prod.mk.injEq] at h
        have h1 := extract_brace_arg_length _ _ _ hb
        have h2 := ih rest1 args2 rest2 he
        have h3 := dropWhile_length_le isArgWs l
        have h4 : rest2.length = rest.length := by rw [h.2]
        omega

/-- ASCII letter, the class `[a-zA-Z]` of the negative lookahead in the macro
pattern. -/
def isAsciiLetter (c : Char) : Bool :=
  ('a' ≤ c && c ≤ 'z') || ('A' ≤ c && c ≤ 'Z')

/-- The negative lookahead `(?![a-zA-Z])` at the head of a suffix. -/
def noLetterAt : List Char → Bool
  | [] => true
  | c :: _ => !isAsciiLetter c

/-- Does the pattern `\\name(?![a-zA-Z])` match at the head of `l`? -/
def matchesMacroAt (name : List Char) (l : List Char) : Bool :=
  match l with
  | '\\' :: rest => name.isPrefixOf rest && noLetterAt (rest.drop name.length)
  | _ => false

/-- `re.search` for the macro pattern: the text before the leftmost match and
the text just after the matched name, or `none`. -/
def findMacroMatch (name : List Char) : List Char → Option (List Char × List Char)
  | [] => none
  | c :: rest =>
    if matchesMacroAt name (c :: rest) then some ([], rest.drop name.length)
    else
      match findMacroMatch name rest with
      | none => none
      | some (pre, after) => some (c :: pre, after)

lemma findMacroMatch_spec :
    ∀ (l : List Char) (name pre after : List Char),
      findMacroMatch name l = some (pre, after) →
      l = pre ++ '\\' :: name ++ after := by
  intro l
  induction l with
  | nil => intro name pre after h; simp [findMacroMatch] at h
  | cons c rest ih =>
    intro name pre after h
    by_cases hm : matchesMacroAt name (c :: rest) = true
    · simp only [findMacroMatch, hm, if_true] at h
      simp only [Option.some.injEq, Prod.mk.injEq] at h
      obtain ⟨h1, h2⟩ := h
      have hcc : c = '\\' := by
        by_contra hne
        unfold matchesMacroAt at hm
        split at hm
        · next heq => injection heq with he1 _; exact hne he1
        · simp at hm
      subst hcc
      unfold matchesMacroAt at hm
      simp only [Bool.and_eq_true] at hm
      have hp : name <+: rest := by
        have := hm.1
        exact List.isPrefixOf_iff_prefix.mp this
      obtain ⟨t, ht⟩ := hp
      have hdrop : rest.drop name.length = t := by rw [← ht, List.drop_left]
      rw [← h1, ← h2, hdrop, ← ht]
      simp
    · simp only [findMacroMatch, if_neg hm] at h
      split at h
      · exact absurd h (by simp)
      · next pre2 after2 hrec =>
        simp only [Option.some.injEq, Prod.mk.injEq] at h
        obtain ⟨h1, h2⟩ := h
        have hre := ih name pre2 after2 hrec
        rw [← h1, ← h2]
        simp [hre]

lemma findMacroMatch_after_lt :
    ∀ (l name pre after : List Char),
      findMacroMatch name l = some (pre, after) → after.length < l.length := by
  intro l name pre after h
  have := findMacroMatch_spec l name pre after h
  subst this
  simp
  omega

/-- The scan for a zero-argument macro; every recursion step consumes at
least the matched macro name, so fuel set to the input length plus one always
suffices. -/
def zeroArgSubF (name expansion : List Char) : Nat → List Char → List Char
  | 0, l => l
  | fuel + 1, l =>
    match findMacroMatch name l with
    | none => l
    | some (pre, after) => pre ++ expansion ++ zeroArgSubF name expansion fuel after

/-- `re.sub` for a zero-argument macro: every occurrence of
`\\name(?![a-zA-Z])` replaced by the expansion text, inserted literally. -/
def zeroArgSub (name expansion : List Char) (l : List Char) : List Char :=
  zeroArgSubF name expansion (l.length + 1) l

/-- `str.replace(pat, rep)`: all non-overlapping occurrences, left to right
(fuel as in `zeroArgSubF`). -/
def replaceAllF (pat rep : List Char) : Nat → List Char → List Char
  | 0, l => l
  | _ + 1, [] => []
  | fuel + 1, c :: rest =>
    if ¬pat.isEmpty ∧ pat.isPrefixOf (c :: rest) then
      rep ++ replaceAllF pat rep fuel ((c :: rest).drop pat.length)
    else c :: replaceAllF pat rep fuel rest

def replaceAllL (pat rep : List Char) (l : List Char) : List Char :=
  replaceAllF pat rep (l.length + 1) l

/-- Positional-placeholder substitution of `_expand_macro_with_args`:
`expanded.replace("#i", arg)` applied for `i = 1..n` in order. -/
def substTemplate (expansion : String) (args : List String) : String :=
  (List.enumFrom 1 args).foldl
    (fun acc p => ⟨replaceAllL ("#" ++ toString p.1).data p.2.data acc.data⟩) expansion

/-- The scanning loop of `_expand_macro_with_args` (fuel as in
`zeroArgSubF`: each step consumes at least the matched macro name). -/
def expandMacroArgsF (name expansion : String) (num_args : Nat) :
    Nat → List Char → List Char
  | 0, l => l
  | fuel + 1, l =>
    match findMacroMatch name.data l with
    | none => l
    | some (pre, afterName) =>
      match extractArgs num_args afterName with
      | some (args, rest) =>
        pre ++ (substTemplate expansion args).data ++
          expandMacroArgsF name expansion num_args fuel rest
      | none =>
        pre ++ '\\' :: name.data ++ expandMacroArgsF name expansion num_args fuel afterName

/-- `MathConverter._expand_macro_with_args`: scan for the pattern; on a match
try to extract the brace arguments; on success substitute them into the
template and resume after the arguments; on failure emit the matched
invocation text unchanged and resume immediately after the macro name. -/
def _expand_macro_with_args (name expansion : String) (num_args : Nat)
    (l : List Char) : List Char :=
  expandMacroArgsF name expansion num_args (l.length + 1) l

/-- The result of `expandMacroArgsF` does not depend on the fuel once the
fuel exceeds the input length (each recursion step strictly shortens the
input). -/
lemma expandMacroArgsF_fuel (name expansion : String) (num_args : Nat) :
    ∀ (f₁ : Nat) (l : List Char) (f₂ : Nat), l.length < f₁ → l.length < f₂ →
      expandMacroArgsF name expansion num_args f₁ l =
        expandMacroArgsF name expansion num_args f₂ l := by
  intro f₁
  induction f₁ with
  | zero => intro l f₂ h1 _; omega
  | succ g ih =>
    intro l f₂ h1 h2
    match f₂ with
    | 0 => omega
    | h + 1 =>
      cases hfm : findMacroMatch name.data l with
      | none => simp [expandMacroArgsF, hfm]
      | some pa =>
        obtain ⟨pre, afterName⟩ := pa
        have hlt := findMacroMatch_after_lt l name.data pre afterName hfm
        cases hex : extractArgs num_args afterName with
        | none =>
          simp only [expandMacroArgsF, hfm, hex]
          rw [ih afterName h (by omega) (by omega)]
        | some ar =>
          obtain ⟨args, rest⟩ := ar
          have hle := extractArgs_length num_args afterName args rest hex
          simp only [expandMacroArgsF, hfm, hex]
          rw [ih rest h (by omega) (by omega)]

/-- One substitution step of `_expand_macros`' inner loop, for one macro. -/
def applyRule (t : String) (rule : String × String × Nat) : String :=
  if rule.2.2 = 0 then ⟨zeroArgSub rule.1.data rule.2.1.data t.data⟩
  else ⟨_expand_macro_with_args rule.1 rule.2.1 rule.2.2 t.data⟩

/-- One full pass of `_expand_macros` over the macro table, with the
`changed` flag the source accumulates across the macros of the pass. -/
def onePass (ms : MacroTable) (t : String) : String × Bool :=
  ms.foldl
    (fun acc rule =>
      let t' := applyRule acc.1 rule
      (t', acc.2 || (t' != acc.1)))
    (t, false)

/-- The `for _ in range(5)` loop: run a pass, stop early if it reported no
change. -/
def expandLoop (ms : MacroTable) : Nat → String → String
  | 0, t => t
  | n + 1, t =>
    let p := onePass ms t
    if p.2 then expandLoop ms n p.1 else p.1

/-- `MathConverter._expand_macros`: the empty table returns the input
untouched, otherwise at most five passes. -/
def _expand_macros (ms : MacroTable) (latex : String) : String :=
  if ms.isEmpty then latex else expandLoop ms 5 latex

/-- `element.string` of BeautifulSoup: the single text child, else empty
(`None or ""`). -/
def scriptString (e : Node) : String :=
  match e.childrenL with
  | [Node.text s] => s
  | _ => ""

/-- `MathConverter.convert`: only `script` elements whose `type` attribute
contains `math/tex`; `mode=display` selects the display wrapper. -/
def convert (ms : MacroTable) (element : Node) : String :=
  match element with
  | .elem "script" attrs _ =>
    let math_type := (attrGet attrs "type").getD ""
    if strContains math_type "math/tex" then
      let latex := _expand_macros ms (pyStrip (scriptString element))
      if strContains math_type "mode=display" then "$$" ++ latex ++ "$$"
      else "$" ++ latex ++ "$"
    else ""
  | _ => ""

/-- The two `re.sub` delimiter rewrites of `convert_text`
(`\[...\]` to `$$...$$` and `\(...\)` to `$...$`), with macro expansion of the
captured group; the capture is non-greedy, so it ends at the first closing
delimiter.  Fuel: every recursion step consumes at least one character, so
the input length plus one always suffices. -/
def subDelimsF (opn cls : List Char) (wrap : String) (ms : MacroTable) :
    Nat → List Char → List Char
  | 0, l => l
  | _ + 1, [] => []
  | fuel + 1, c :: rest =>
    if ¬opn.isEmpty ∧ opn.isPrefixOf (c :: rest) then
      match splitFirst cls ((c :: rest).drop opn.length) with
      | some (content, after) =>
        wrap.data ++ (_expand_macros ms ⟨content⟩).data ++ wrap.data ++
          subDelimsF opn cls wrap ms fuel after
      | none => c :: rest
    else c :: subDelimsF opn cls wrap ms fuel rest

def subDelims (opn cls : List Char) (wrap : String) (ms : MacroTable)
    (l : List Char) : List Char :=
  subDelimsF opn cls wrap ms (l.length + 1) l

/-- The literal `\eqref{` of the `_convert_eqref` pattern. -/
def eqrefOpen : List Char := ['\\', 'e', 'q', 'r', 'e', 'f', '{']

/-- `_convert_eqref`: `\eqref{X}` with a non-empty brace-free `X` becomes
`(X)`; an empty or unclosed reference is left as it stands. -/
def subEqrefF : Nat → List Char → List Char
  | 0, l => l
  | _ + 1, [] => []
  | fuel + 1, c :: rest =>
    if eqrefOpen.isPrefixOf (c :: rest) then
      match splitFirst ['}'] ((c :: rest).drop eqrefOpen.length) with
      | some (content, after) =>
        if content.isEmpty then
          eqrefOpen ++ subEqrefF fuel ((c :: rest).drop eqrefOpen.length)
        else '(' :: content ++ ')' :: subEqrefF fuel after
      | none => c :: rest
    else c :: subEqrefF fuel rest

def subEqref (l : List Char) : List Char := subEqrefF (l.length + 1) l

/-- The content normalization inside one display-math block: strip, split on
newlines, strip each line, drop empties, join with single spaces. -/
def normalizeDisplayContent (content : List Char) : List Char :=
  List.intercalate [' ']
    (((pyStripL content).splitOn '\n').map pyStripL |>.filter (fun l => !l.isEmpty))

/-- `_normalize_display_math`: at each line start, optional indentation then a
`$$ ... $$` block (found non-greedily, possibly spanning lines) is replaced by
`$$`, the space-joined content and `$$` on their own lines. -/
def dispScanF : Nat → Bool → List Char → List Char
  | 0, _, l => l
  | _ + 1, _, [] => []
  | fuel + 1, atStart, c :: rest =>
    if atStart then
      let l1 := (c :: rest).dropWhile (fun x => x = ' ' || x = '\t')
      if ['$', '$'].isPrefixOf l1 then
        match splitFirst ['$', '$'] (l1.drop 2) with
        | some (content, after) =>
          '$' :: '$' :: '\n' :: normalizeDisplayContent content ++
            '\n' :: '$' :: '$' :: dispScanF fuel false after
        | none => c :: rest
      else c :: dispScanF fuel (c = '\n') rest
    else c :: dispScanF fuel (c = '\n') rest

def dispScan (atStart : Bool) (l : List Char) : List Char :=
  dispScanF (l.length + 1) atStart l

def neDollar (c : Char) : Bool := c ≠ '$'

/-- The closing scan of `_normalize_inline_math`: content runs to the first
`$`; that `$` closes the span unless it is immediately followed by another
`$`, in which case the whole match attempt fails (the lazy regex can neither
close nor extend there). -/
def findInlClose (l : List Char) : Option (List Char × List Char) :=
  match l.dropWhile neDollar with
  | '$' :: '$' :: _ => none
  | '$' :: r => some (l.takeWhile neDollar, r)
  | _ => none

/-- `_normalize_inline_math`: single-`$` spans (openers and closers not
adjacent to another `$`) have their content whitespace-collapsed onto one
line; `prev` carries the previously scanned character for the lookbehind. -/
def inlScanF : Nat → Option Char → List Char → List Char
  | 0, _, l => l
  | _ + 1, _, [] => []
  | fuel + 1, prev, c :: rest =>
    if c = '$' then
      if prev = some '$' then '$' :: inlScanF fuel (some '$') rest
      else if rest.head? = some '$' then '$' :: inlScanF fuel (some '$') rest
      else
        match findInlClose rest with
        | some (content, after) =>
          '$' :: squashWsL content ++ '$' :: inlScanF fuel (some '$') after
        | none => '$' :: inlScanF fuel (some '$') rest
    else c :: inlScanF fuel (some c) rest

def inlScan (prev : Option Char) (l : List Char) : List Char :=
  inlScanF (l.length + 1) prev l

/-- The literal `\mbox{` rewritten by `_convert_mbox`. -/
def mboxPat : List Char := ['\\', 'm', 'b', 'o', 'x', '{']

/-- Its replacement `\text{`. -/
def mboxRep : List Char := ['\\', 't', 'e', 'x', 't', '{']

/-- `MathConverter.convert_text`: delimiter conversion with macro expansion,
then the `eqref` and `mbox` rewrites, then display-math and inline-math
normalization, in the order the source applies them. -/
def convert_text (ms : MacroTable) (text : String) : String :=
  let t := subDelims ['\\', '['] ['\\', ']'] "$$" ms text.data
  let t := subDelims ['\\', '('] ['\\', ')'] "$" ms t
  let t := subEqref t
  let t := replaceAllL mboxPat mboxRep t
  let t := dispScan true t
  let t := inlScan none t
  ⟨t⟩

/-- `MathConverter.extract_from_span`: an embedded math script wins; else a
non-empty `data-latex` attribute, macro-expanded and wrapped inline; else no
math (`None`, which is not an error). -/
def extract_from_span (ms : MacroTable) (element : Node) : Option String :=
  match element.find (fun n =>
      n.tagIs "script" && strContains ((n.attr "type").getD "") "math/tex") with
  | some script => some (convert ms script)
  | none =>
    match element.attr "data-latex" with
    | some latex => if latex ≠ "" then some ("$" ++ _expand_macros ms latex ++ "$") else none
    | none => none

end MathConverter

/-- The fixed excluded-section set of `parser.py`. -/
def EXCLUDED_SECTIONS : List String :=
  ["related entries", "academic tools", "other internet resources",
   "acknowledgments", "appendices"]

/-- `re.sub(r"^\d+\.\s*", "", ·)`: strip a leading numbering like `3.` with
trailing whitespace. -/
def dropNumbering (l : List Char) : List Char :=
  let ds := l.takeWhile Char.isDigit
  if ds.isEmpty then l
  else
    match l.drop ds.length with
    | '.' :: rest => rest.dropWhile isPySpace
    | _ => l

/-- The normalized heading text used both by the exclusion rules and the
bibliography search: stripped text, lower-cased, numbering removed. -/
def normalizedHeading (e : Node) : String :=
  ⟨dropNumbering (pyLower e.getTextStrip).data⟩

/-- The heading-name test of `get_main_content`: in the excluded set, or
`bibliography`/`references`. -/
def isExcludedName (t : String) : Bool :=
  EXCLUDED_SECTIONS.contains t || t == "bibliography" || t == "references"

namespace SEPParser

open MathConverter in
/-- The child dispatch of `SEPParser._convert_paragraph`: text kept verbatim,
a `sup` containing an anchor through the footnote reference rule, a
`math/tex` script through the math converter, a classed `span` through
`extract_from_span` with inline fallback, anything else through plain inline
conversion. -/
def paraParts (ms : MacroTable) : List Node → List String
  | [] => []
  | c :: rest =>
    (match c with
     | .text s => s
     | .elem t _ _ =>
       if t = "sup" ∧ (c.find (·.tagIs "a")).isSome then
         FootnoteConverter.convert_reference c
       else if t = "script" ∧ strContains (c.attrD "type") "math/tex" then
         MathConverter.convert ms c
       else if t = "span" ∧ c.attrD "class" ≠ "" then
         match MathConverter.extract_from_span ms c with
         | some r => r
         | none => TextConverter.convert_inline c
       else TextConverter.convert_inline c) :: paraParts ms rest

open MathConverter in
/-- `SEPParser._convert_paragraph`: concatenate the parts, then collapse
whitespace and strip. -/
def _convert_paragraph (ms : MacroTable) (e : Node) : String :=
  collapseWs (String.join (paraParts ms e.childrenL))

open MathConverter in
mutual

/-- `SEPParser._convert_element`: per-tag dispatch.  `Except`-valued because
the table path raises (see `TableConverter._convert_cell`). -/
def convertElementF (ms : MacroTable) : Nat → Node → Except String String
  | 0, _ => .ok ""
  | _ + 1, .text _ => .ok ""
  | fuel + 1, .elem t a cs =>
    if TextConverter.isHeadingTag t then .ok (TextConverter.convert (.elem t a cs))
    else if t = "p" then .ok (_convert_paragraph ms (.elem t a cs))
    else if t = "ul" ∨ t = "ol" then .ok (TextConverter.convert (.elem t a cs))
    else if t = "blockquote" then .ok (TextConverter.convert (.elem t a cs))
    else if t = "table" then TableConverter.convert (.elem t a cs)
    else if t = "div" then do
      let parts ← divPartsF ms fuel cs
      pure (String.intercalate "\n\n" parts)
    else .ok ""

/-- The `div` recursion of `_convert_element`: convert element children,
keeping the non-empty results. -/
def divPartsF (ms : MacroTable) : Nat → List Node → Except String (List String)
  | 0, _ => .ok []
  | _ + 1, [] => .ok []
  | fuel + 1, .text _ :: rest => divPartsF ms fuel rest
  | fuel + 1, .elem t2 a2 cs2 :: rest => do
    let conv ← convertElementF ms fuel (.elem t2 a2 cs2)
    let out ← divPartsF ms fuel rest
    pure (if conv ≠ "" then conv :: out else out)

end

open MathConverter in
def _convert_element (ms : MacroTable) (e : Node) : Except String String :=
  convertElementF ms (nodeSize e) e

open MathConverter in
/-- The accumulation loop of `get_main_content` over the direct children of
the main-content container: `skip` is `skip_until_next_h2`; a converted
non-empty fragment contributes itself plus a blank line. -/
def mainLoop (ms : MacroTable) : Bool → List Node → Except String (List String)
  | _, [] => .ok []
  | skip, c :: rest =>
    match c with
    | .text _ => mainLoop ms skip rest
    | .elem t _ _ =>
      if t = "h2" ∨ t = "h3" then
        let isExcl := isExcludedName (normalizedHeading c)
        if t = "h2" then
          if isExcl then mainLoop ms true rest
          else do
            let conv ← _convert_element ms c
            let out ← mainLoop ms false rest
            pure (if conv ≠ "" then conv :: "" :: out else out)
        else
          if isExcl then mainLoop ms true rest
          else if skip then mainLoop ms skip rest
          else do
            let conv ← _convert_element ms c
            let out ← mainLoop ms skip rest
            pure (if conv ≠ "" then conv :: "" :: out else out)
      else if skip then mainLoop ms skip rest
      else do
        let conv ← _convert_element ms c
        let out ← mainLoop ms skip rest
        pure (if conv ≠ "" then conv :: "" :: out else out)

/-- `soup.find("div", id="main-text")`, falling back to `id="aueditable"`. -/
def findMainText (soup : Node) : Option Node :=
  match soup.find (fun n => n.tagIs "div" && n.attr "id" == some "main-text") with
  | some d => some d
  | none => soup.find (fun n => n.tagIs "div" && n.attr "id" == some "aueditable")

open MathConverter in
/-- `SEPParser.get_main_content`: empty string when no container; otherwise
the skip-state loop, one final `convert_text` pass, and a strip. -/
def get_main_content (ms : MacroTable) (soup : Node) : Except String String :=
  match findMainText soup with
  | none => .ok ""
  | some mt => do
    let lines ← mainLoop ms false mt.childrenL
    pure (pyStrip (MathConverter.convert_text ms (joinNL lines)))

end SEPParser

namespace BibliographyConverter

/-- `li.find("ul", recursive=False)` followed by `.extract()`: the first
direct `ul` child and the children without it (modelled without mutating the
tree). -/
def removeFirstUl : List Node → Option Node × List Node
  | [] => (none, [])
  | c :: rest =>
    if c.tagIs "ul" then (some c, rest)
    else
      let (u, r) := removeFirstUl rest
      (u, c :: r)

lemma removeFirstUl_mem :
    ∀ (cs : List Node) (n : Node), (removeFirstUl cs).1 = some n → n ∈ cs := by
  intro cs
  induction cs with
  | nil => intro n h; simp [removeFirstUl] at h
  | cons c rest ih =>
    intro n h
    by_cases hc : c.tagIs "ul" = true
    · simp only [removeFirstUl, hc, if_true] at h
      simp only [Option.some.injEq] at h
      simp [h]
    · simp only [removeFirstUl, hc, if_false] at h
      exact List.mem_cons_of_mem _ (ih n h)

/-- The loop body of `BibliographyConverter._convert_list`: direct `li`
children; the first direct nested `ul` is detached before the item's inline
conversion and rendered afterwards at the next indent depth. -/
def bibItemsF : Nat → Nat → List Node → List String
  | 0, _, _ => []
  | _ + 1, _, [] => []
  | fuel + 1, depth, .text _ :: rest => bibItemsF fuel depth rest
  | fuel + 1, depth, .elem t a cs :: rest =>
    if t = "li" then
      let text := collapseWs (TextConverter.convert_inline (.elem t a (removeFirstUl cs).2))
      let indent := String.mk (List.replicate (2 * depth) ' ')
      (if text ≠ "" then [indent ++ "- " ++ text] else []) ++
      (match (removeFirstUl cs).1 with
       | none => []
       | some n => [joinNL (bibItemsF fuel (depth + 1) n.childrenL)]) ++
      bibItemsF fuel depth rest
    else bibItemsF fuel depth rest

/-- `BibliographyConverter._convert_list`. -/
def _convert_list (ul : Node) (depth : Nat) : String :=
  match ul with
  | .text _ => joinNL []
  | .elem _ _ cs => joinNL (bibItemsF (nodeSizeL cs) depth cs)

/-- The per-child dispatch of `BibliographyConverter.convert`: headings 2-4
emit heading lines, a top-level `ul` goes through the list flattener, a bare
paragraph is inline-converted; each non-empty emission is followed by a blank
line. -/
def bibSectionLines : List Node → List String
  | [] => []
  | .text _ :: rest => bibSectionLines rest
  | .elem t a cs :: rest =>
    (if t = "h2" then ["## " ++ Node.getTextStrip (.elem t a cs), ""]
     else if t = "h3" then ["### " ++ Node.getTextStrip (.elem t a cs), ""]
     else if t = "h4" then ["#### " ++ Node.getTextStrip (.elem t a cs), ""]
     else if t = "ul" then [_convert_list (.elem t a cs) 0, ""]
     else if t = "p" then
       let entry := TextConverter.convert_inline (.elem t a cs)
       if entry ≠ "" then [entry, ""] else []
     else []) ++ bibSectionLines rest

/-- `BibliographyConverter.convert`. -/
def convert (sec : Node) : String :=
  pyRStrip (joinNL (bibSectionLines sec.childrenL))

end BibliographyConverter

def isBibName (t : String) : Bool := t == "bibliography" || t == "references"

namespace SEPParser

/-- Pre-order search for the first `h2`/`h3` heading whose normalized text is
`bibliography`/`references`, returning the heading, its parent (`none` when
it is a direct child of the document) and its following siblings. -/
def findBibHeadingF : Nat → Option Node → List Node → Option (Node × Option Node × List Node)
  | 0, _, _ => none
  | _ + 1, _, [] => none
  | fuel + 1, parent, n :: rest =>
    if (n.tagIs "h2" || n.tagIs "h3") && isBibName (normalizedHeading n) then
      some (n, parent, rest)
    else
      match findBibHeadingF fuel (some n) n.childrenL with
      | some r => some r
      | none => findBibHeadingF fuel parent rest

def findBibHeading (parent : Option Node) (l : List Node) : Option (Node × Option Node × List Node) :=
  findBibHeadingF (nodeSizeL l) parent l

/-- `SEPParser.get_bibliography`: a heading inside a dedicated `div` (one that
is not the main-content container) converts that whole container; otherwise a
virtual section is synthesized from the heading and its following siblings up
to the next `h2`/`h3` (the source serializes them and re-parses; on a
well-formed tree that is the same container). -/
def get_bibliography (soup : Node) : String :=
  match findBibHeading none soup.childrenL with
  | none => ""
  | some (heading, parentOpt, siblings) =>
    let virtual : Node :=
      .elem "div" []
        (heading :: siblings.takeWhile (fun s => !(s.tagIs "h2" || s.tagIs "h3")))
    match parentOpt with
    | some parent =>
      if parent.tagIs "div" && !(parent.attr "id" == some "main-text")
          && !(parent.attr "id" == some "aueditable") then
        BibliographyConverter.convert parent
      else BibliographyConverter.convert virtual
    | none => BibliographyConverter.convert virtual

end SEPParser

/-- The metadata dictionary consumed by `format_frontmatter`; every field may
be absent (`dict.get` returning `None`). -/
structure Metadata where
  title : Option String
  author : Option String
  published : Option String
  revised : Option String
  url : Option String

/-- `metadata._quote_value`: `null` for `None`, double quotes with inner
quotes backslash-escaped for strings. -/
def _quote_value : Option String → String
  | none => "null"
  | some v => "\"" ++ String.mk (v.data.flatMap (fun c => if c = '"' then ['\\', '"'] else [c])) ++ "\""

/-- The frontmatter block without its trailing newline: `---`-fenced lines in
the fixed field order. -/
def frontmatterCore (md : Metadata) : String :=
  joinNL ["---",
    "title: " ++ _quote_value md.title,
    "author: " ++ _quote_value md.author,
    "published: " ++ _quote_value md.published,
    "revised: " ++ _quote_value md.revised,
    "url: " ++ _quote_value md.url,
    "---"]

/-- `metadata.format_frontmatter`: the joined lines plus a trailing newline. -/
def format_frontmatter (md : Metadata) : String := frontmatterCore md ++ "\n"

/-- `"\n".join(parts)` on character lists. -/
def pyJoinNLL : List (List Char) → List Char
  | [] => []
  | [p] => p
  | p :: q :: rest => p ++ '\n' :: pyJoinNLL (q :: rest)

def appendixHeading (t : List Char) : List Char := "## Appendix ".data ++ t

def notesHeading : List Char := "## Notes".data

/-- The `parts` list built by `assemble_markdown`: frontmatter, then the
guarded appends for preamble, content, appendices, footnotes and
bibliography, in source order. -/
def assembleParts (fm pre content : List Char) (apps : List (List Char × List Char))
    (fns bib : List Char) : List (List Char) :=
  [fm] ++ (if pre ≠ [] then [pre, []] else [])
    ++ (if content ≠ [] then [content] else [])
    ++ apps.flatMap (fun tb => [[], appendixHeading tb.1, [], tb.2])
    ++ (if fns ≠ [] then [[], notesHeading, [], fns] else [])
    ++ (if bib ≠ [] then [[], bib] else [])

/-- `assembler.assemble_markdown`: join with newlines, strip, and append one
trailing newline. -/
def assemble_markdown (metadata : Metadata) (content footnotes bibliography : String)
    (appendices : List (String × String) := []) (preamble : String := "") : String :=
  String.mk
    (pyStripL
      (pyJoinNLL
        (assembleParts (format_frontmatter metadata).data preamble.data content.data
          (appendices.map (fun tb => (tb.1.data, tb.2.data))) footnotes.data
          bibliography.data)) ++ ['\n'])

/-- Scheme characters of `urllib.parse`: letters, digits and `+-.`. -/
def isSchemeChar (c : Char) : Bool := c.isAlphanum || c = '+' || c = '-' || c = '.'

/-- The scheme split of `urlparse`: drop `scheme:` when the prefix before the
first colon is a non-empty valid scheme. -/
def splitScheme (l : List Char) : List Char :=
  let pre := l.takeWhile (fun c => !(c == ':'))
  match l.dropWhile (fun c => !(c == ':')) with
  | ':' :: rest =>
    if !pre.isEmpty && (pre.headD 'a').isAlpha && pre.all isSchemeChar then rest else l
  | _ => l

/-- The netloc split of `urlparse`: present only after `//`, running to the
next `/`, `?` or `#`. -/
def netlocSplit (l : List Char) : List Char × List Char :=
  if ['/', '/'].isPrefixOf l then
    let rest := l.drop 2
    (rest.takeWhile (fun c => !(c == '/') && !(c == '?') && !(c == '#')),
     rest.dropWhile (fun c => !(c == '/') && !(c == '?') && !(c == '#')))
  else ([], l)

/-- The `;parameters` split of `urlparse`: parameters are cut from the last
path segment. -/
def splitParams (l : List Char) : List Char :=
  if l.contains '/' then
    let pre := (l.reverse.dropWhile (fun c => !(c == '/'))).reverse
    let seg := (l.reverse.takeWhile (fun c => !(c == '/'))).reverse
    if seg.contains ';' then pre ++ seg.takeWhile (fun c => !(c == ';')) else l
  else if l.contains ';' then l.takeWhile (fun c => !(c == ';')) else l

/-- `urlparse(url).netloc`, modelled from `urllib.parse` for URLs without
bracketed hosts. -/
def urlNetloc (url : String) : String := ⟨(netlocSplit (splitScheme url.data)).1⟩

/-- `urlparse(url).path`, modelled from `urllib.parse`: the remainder after
the netloc, cut at the first `#` or `?`, with `;parameters` removed. -/
def urlPath (url : String) : String :=
  ⟨splitParams
    (((netlocSplit (splitScheme url.data)).2.takeWhile (fun c => !(c == '#'))).takeWhile
      (fun c => !(c == '?')))⟩

def valid_domains : List String := ["plato.stanford.edu", "seop.illc.uva.nl"]

/-- `fetcher.validate_sep_url`: `ValueError` when the netloc is not one of
the two accepted hosts or the path does not start with `/entries/`; the URL
itself is returned unchanged otherwise. -/
def validate_sep_url (url : String) : Except String String :=
  if !(valid_domains.contains (urlNetloc url)) then
    .error ("Not a SEP URL: " ++ url)
  else if !(pyStartsWith (urlPath url) "/entries/") then
    .error ("Not an article URL: " ++ url)
  else .ok url

/-! Properties of the whitespace collapse. -/

lemma pyStripL_eq (l : List Char) :
    pyStripL l = List.rdropWhile isPySpace (l.dropWhile isPySpace) := rfl

/-- A collapsed-shape invariant: every whitespace character is a plain space,
and no two whitespace characters are adjacent. -/
def GoodWs (l : List Char) : Prop :=
  (∀ c ∈ l, isPySpace c = true → c = ' ') ∧
    l.Chain' (fun a b => ¬(isPySpace a = true ∧ isPySpace b = true))

lemma squash_good_aux :
    ∀ l : List Char,
      GoodWs (squashAux false l) ∧ GoodWs (squashAux true l) ∧
        (∀ c, (squashAux true l).head? = some c → isPySpace c = false) := by
  intro l
  induction l with
  | nil =>
    refine ⟨⟨by simp [squashAux], by simp [squashAux]⟩,
      ⟨by simp [squashAux], by simp [squashAux]⟩, ?_⟩
    intro d hd
    simp [squashAux] at hd
  | cons c rest ih =>
    obtain ⟨ihF, ihT, ihH⟩ := ih
    by_cases hc : isPySpace c = true
    · have eF : squashAux false (c :: rest) = ' ' :: squashAux true rest := by
        simp [squashAux, hc]
      have eT : squashAux true (c :: rest) = squashAux true rest := by
        simp [squashAux, hc]
      refine ⟨?_, ?_, ?_⟩
      · rw [eF]
        constructor
        · intro x hx _
          rcases List.mem_cons.mp hx with h | h
          · exact h
          · exact ihT.1 x h (by assumption)
        · rw [List.chain'_cons']
          refine ⟨?_, ihT.2⟩
          intro y hy hcon
          have := ihH y hy
          rw [hcon.2] at this
          simp at this
      · rw [eT]; exact ihT
      · intro d hd
        rw [eT] at hd
        exact ihH d hd
    · have eF : squashAux false (c :: rest) = c :: squashAux false rest := by
        simp [squashAux, hc]
      have eT : squashAux true (c :: rest) = c :: squashAux false rest := by
        simp [squashAux, hc]
      have hgc : GoodWs (c :: squashAux false rest) := by
        constructor
        · intro x hx hw
          rcases List.mem_cons.mp hx with h | h
          · rw [h] at hw; exact absurd hw hc
          · exact ihF.1 x h hw
        · rw [List.chain'_cons']
          exact ⟨fun y _ hcon => hc hcon.1, ihF.2⟩
      refine ⟨?_, ?_, ?_⟩
      · rw [eF]; exact hgc
      · rw [eT]; exact hgc
      · intro d hd
        rw [eT] at hd
        simp at hd
        rw [← hd]
        simpa using hc

lemma squash_good (l : List Char) : GoodWs (squashWsL l) := (squash_good_aux l).1

lemma squashAux_true_of_headOk (l : List Char)
    (h : ∀ c, l.head? = some c → isPySpace c = false) :
    squashAux true l = squashAux false l := by
  cases l with
  | nil => rfl
  | cons d r =>
    have hd : isPySpace d = false := h d rfl
    simp [squashAux, hd]

lemma squash_of_good : ∀ l : List Char, GoodWs l → squashWsL l = l := by
  intro l
  induction l with
  | nil => intro _; rfl
  | cons c rest ih =>
    intro hg
    by_cases hc : isPySpace c = true
    · have hcsp : c = ' ' := hg.1 c (by simp) hc
      have hhead : ∀ d, rest.head? = some d → isPySpace d = false := by
        intro d hd
        have := (List.chain'_cons'.mp hg.2).1 d hd
        by_contra hcon
        simp at hcon
        exact this ⟨hc, hcon⟩
      have hgrest : GoodWs rest :=
        ⟨fun x hx hwx => hg.1 x (List.mem_cons_of_mem _ hx) hwx, (List.chain'_cons'.mp hg.2).2⟩
      show squashAux false (c :: rest) = c :: rest
      rw [show squashAux false (c :: rest) = ' ' :: squashAux true rest by simp [squashAux, hc]]
      rw [squashAux_true_of_headOk rest hhead]
      rw [show squashAux false rest = rest from ih hgrest, hcsp]
    · have hgrest : GoodWs rest :=
        ⟨fun x hx hwx => hg.1 x (List.mem_cons_of_mem _ hx) hwx, (List.chain'_cons'.mp hg.2).2⟩
      show squashAux false (c :: rest) = c :: rest
      rw [show squashAux false (c :: rest) = c :: squashAux false rest by simp [squashAux, hc]]
      rw [show squashAux false rest = rest from ih hgrest]

lemma dropWhile_head_not (p : Char → Bool) :
    ∀ (l : List Char) (c : Char) (r : List Char), l.dropWhile p = c :: r → ¬p c = true := by
  intro l
  induction l with
  | nil => intro c r h; simp at h
  | cons d rest ih =>
    intro c r h
    by_cases hd : p d = true
    · simp only [List.dropWhile, hd] at h
      exact ih c r h
    · simp only [List.dropWhile, hd] at h
      simp at h
      rw [← h.1]
      simpa using hd

lemma good_strip (l : List Char) (hg : GoodWs l) : GoodWs (pyStripL l) := by
  rw [pyStripL_eq]
  have hsuffix : l.dropWhile isPySpace <:+ l := List.dropWhile_suffix _
  have hpre : List.rdropWhile isPySpace (l.dropWhile isPySpace) <+: l.dropWhile isPySpace :=
    List.rdropWhile_prefix _ _
  constructor
  · intro c hc hwc
    exact hg.1 c (hsuffix.subset (hpre.subset hc)) hwc
  · exact List.Chain'.prefix (hg.2.suffix hsuffix) hpre

lemma strip_idem (l : List Char) : pyStripL (pyStripL l) = pyStripL l := by
  rw [pyStripL_eq, pyStripL_eq]
  have hdrop : (List.rdropWhile isPySpace (l.dropWhile isPySpace)).dropWhile isPySpace =
      List.rdropWhile isPySpace (l.dropWhile isPySpace) := by
    rcases hz : List.rdropWhile isPySpace (l.dropWhile isPySpace) with _ | ⟨c, r⟩
    · simp
    · obtain ⟨t, ht⟩ := List.rdropWhile_prefix isPySpace (l.dropWhile isPySpace)
      rw [hz] at ht
      have hw : l.dropWhile isPySpace = c :: (r ++ t) := by rw [← ht]; simp
      have hc := dropWhile_head_not isPySpace l c (r ++ t) hw
      simp [List.dropWhile, hc]
  rw [hdrop, List.rdropWhile_idempotent]

/-- The collapse is a fixed point on collapsed output. -/
lemma collapse_idem_L (l : List Char) :
    pyStripL (squashWsL (pyStripL (squashWsL l))) = pyStripL (squashWsL l) := by
  have h1 : GoodWs (squashWsL l) := squash_good l
  have h2 : GoodWs (pyStripL (squashWsL l)) := good_strip _ h1
  rw [squash_of_good _ h2, strip_idem]

/-- C9: the whitespace-collapse operation used by the pipeline
(`re.sub(r"\s+", " ", x).strip()`, as in `SEPParser._convert_paragraph` and
`TableConverter._convert_cell`) is idempotent: collapsing twice equals
collapsing once, for every input string. -/
theorem collapse_ws_idempotent (s : String) : collapseWs (collapseWs s) = collapseWs s := by
  show String.mk (pyStripL (squashWsL (pyStripL (squashWsL s.data)))) =
    String.mk (pyStripL (squashWsL s.data))
  rw [collapse_idem_L]

/-! Claim C10: URL validation. -/

/-- C10: `validate_sep_url` rejects exactly the URLs whose parsed netloc is
not one of the two accepted hosts or whose parsed path does not start with
`/entries/`; a URL it accepts is returned unchanged. -/
theorem validate_sep_url_spec (url : String) :
    (∀ r, validate_sep_url url = Except.ok r → r = url) ∧
    ((∃ r, validate_sep_url url = Except.ok r) ↔
      (urlNetloc url ∈ valid_domains ∧
        pyStartsWith (urlPath url) "/entries/" = true)) := by
  unfold validate_sep_url
  by_cases h1 : urlNetloc url ∈ valid_domains
  · by_cases h2 : pyStartsWith (urlPath url) "/entries/" = true
    · simp [h1, h2]
    · simp [h1, h2]
  · simp [h1]

/-- Witness for C10 at a concrete accepted URL. -/
theorem validate_sep_url_spec_witness :
    validate_sep_url "https://plato.stanford.edu/entries/kant/" =
      Except.ok "https://plato.stanford.edu/entries/kant/" := by
  have h := (validate_sep_url_spec "https://plato.stanford.edu/entries/kant/").2.mpr
    ⟨by decide, by decide⟩
  obtain ⟨r, hr⟩ := h
  have := (validate_sep_url_spec "https://plato.stanford.edu/entries/kant/").1 r hr
  rw [hr, this]

/-! Claim C6: numeric footnote ordering. -/

namespace FootnoteConverter

lemma find?_perm_of_nodup :
    ∀ {l₁ l₂ : List (String × String)}, l₁.Perm l₂ → (l₁.map Prod.fst).Nodup →
      ∀ k, l₁.find? (fun p => p.1 == k) = l₂.find? (fun p => p.1 == k) := by
  intro l₁ l₂ hp
  induction hp with
  | nil => intro _ _; rfl
  | cons x h ih =>
    intro hnd k
    by_cases hx : (x.1 == k) = true
    · simp [List.find?, hx]
    · simp only [List.find?, hx]
      apply ih ?_ k
      simp only [List.map_cons, List.nodup_cons] at hnd
      exact hnd.2
  | swap x y l =>
    intro hnd k
    simp only [List.map_cons, List.nodup_cons, List.mem_cons] at hnd
    by_cases hy : (y.1 == k) = true
    · by_cases hx : (x.1 == k) = true
      · exfalso
        have h1 : y.1 = k := by simpa using hy
        have h2 : x.1 = k := by simpa using hx
        exact hnd.1 (Or.inl (h1.trans h2.symm))
      · simp [List.find?, hx, hy]
    · by_cases hx : (x.1 == k) = true
      · simp [List.find?, hx, hy]
      · simp [List.find?, hx, hy]
  | trans h12 h23 ih1 ih2 =>
    intro hnd k
    refine (ih1 hnd k).trans (ih2 ?_ k)
    exact ((h12.map Prod.fst).nodup_iff).mp hnd

lemma dictGet_perm_of_nodup {l₁ l₂ : List (String × String)} (hp : l₁.Perm l₂)
    (hnd : (l₁.map Prod.fst).Nodup) (k : String) : dictGet l₁ k = dictGet l₂ k := by
  unfold dictGet
  rw [find?_perm_of_nodup hp hnd k]

lemma sorted_keyLE_perm_eq :
    ∀ (l₁ l₂ : List String), l₁.Perm l₂ → l₁.Sorted keyLE → l₂.Sorted keyLE →
      (l₁.map keyVal).Nodup → l₁ = l₂ := by
  intro l₁
  induction l₁ with
  | nil =>
    intro l₂ hp _ _ _
    have := hp.length_eq
    cases l₂
    · rfl
    · simp at this
  | cons a t ih =>
    intro l₂ hp hs1 hs2 hnd
    match l₂ with
    | [] => exact absurd hp.length_eq (by simp)
    | b :: t₂ =>
      have hab : a = b := by
        have hain : a ∈ b :: t₂ := hp.subset (by simp)
        have hbin : b ∈ a :: t := hp.symm.subset (by simp)
        have h1 : keyLE b a := by
          rcases List.mem_cons.mp hain with h | h
          · rw [h]; exact Nat.le_refl _
          · exact (List.sorted_cons.mp hs2).1 a h
        have h2 : keyLE a b := by
          rcases List.mem_cons.mp hbin with h | h
          · rw [h]; exact Nat.le_refl _
          · exact (List.sorted_cons.mp hs1).1 b h
        have hkv : keyVal a = keyVal b := Nat.le_antisymm h2 h1
        by_contra hne
        have hbt : b ∈ t := by
          rcases List.mem_cons.mp hbin with h | h
          · exact absurd h.symm hne
          · exact h
        exact hne (List.inj_on_of_nodup_map hnd (by simp) (List.mem_cons_of_mem _ hbt) hkv)
      subst hab
      have hpt : t.Perm t₂ := hp.cons_inv
      have hndt : (t.map keyVal).Nodup := by
        simp only [List.map_cons, List.nodup_cons] at hnd
        exact hnd.2
      rw [ih t₂ hpt (List.sorted_cons.mp hs1).2 (List.sorted_cons.mp hs2).2 hndt]

lemma sortedKeys_perm (k₁ k₂ : List String) (hp : k₁.Perm k₂)
    (hnd : (k₁.map keyVal).Nodup) : sortedKeys k₁ = sortedKeys k₂ := by
  haveI : IsTotal String keyLE := ⟨fun a b => Nat.le_total _ _⟩
  haveI : IsTrans String keyLE := ⟨fun _ _ _ => Nat.le_trans⟩
  apply sorted_keyLE_perm_eq
  · exact (List.perm_insertionSort keyLE k₁).trans
      (hp.trans (List.perm_insertionSort keyLE k₂).symm)
  · exact List.sorted_insertionSort keyLE k₁
  · exact List.sorted_insertionSort keyLE k₂
  · exact (((List.perm_insertionSort keyLE k₁).map keyVal).nodup_iff).mpr hnd

lemma defLines_congr (d₁ d₂ : List (String × String))
    (h : ∀ k, dictGet d₁ k = dictGet d₂ k) :
    ∀ keys, defLines d₁ keys = defLines d₂ keys := by
  intro keys
  induction keys with
  | nil => rfl
  | cons k ks ih =>
    simp only [defLines]
    rw [h k, ih]

lemma perm_all_eq {α : Type} {l₁ l₂ : List α} (h : l₁.Perm l₂) (f : α → Bool) :
    l₁.all f = l₂.all f := by
  cases hb : l₂.all f
  · rw [List.all_eq_false] at hb ⊢
    obtain ⟨x, hx, hfx⟩ := hb
    exact ⟨x, h.mem_iff.mpr hx, hfx⟩
  · rw [List.all_eq_true] at hb ⊢
    intro x hx
    exact hb x (h.mem_iff.mp hx)

lemma format_definitions_perm (l₁ l₂ : List (String × String)) (hp : l₁.Perm l₂)
    (hnd : (l₁.map (fun p => keyVal p.1)).Nodup) :
    format_definitions l₁ = format_definitions l₂ := by
  have hndk : ((l₁.map Prod.fst).map keyVal).Nodup := by
    rw [List.map_map]
    exact hnd
  have hndf : (l₁.map Prod.fst).Nodup := List.Nodup.of_map keyVal hndk
  unfold format_definitions
  by_cases he : l₁.isEmpty = true
  · have he₂ : l₂.isEmpty = true := by
      have := hp.length_eq
      cases l₁ <;> cases l₂ <;> simp_all
    rw [if_pos he, if_pos he₂]
  · have he₂ : ¬l₂.isEmpty = true := by
      have := hp.length_eq
      cases l₁ <;> cases l₂ <;> simp_all
    rw [if_neg he, if_neg he₂]
    have hkp : (l₁.map Prod.fst).Perm (l₂.map Prod.fst) := hp.map Prod.fst
    have hall : (l₁.map Prod.fst).all (fun k => (parseNatDigits k.data).isSome) =
        (l₂.map Prod.fst).all (fun k => (parseNatDigits k.data).isSome) := perm_all_eq hkp _
    by_cases ha : (l₁.map Prod.fst).all (fun k => (parseNatDigits k.data).isSome) = true
    · rw [if_pos ha, if_pos (hall ▸ ha)]
      rw [sortedKeys_perm _ _ hkp hndk]
      rw [defLines_congr l₁ l₂ (dictGet_perm_of_nodup hp hndf)]
    · rw [if_neg ha, if_neg (hall ▸ ha)]

end FootnoteConverter

/-- C6: `format_definitions` emits definitions in numeric ascending key
order, independent of insertion order (stated for maps whose digit-string
keys have pairwise distinct numeric values, which the order makes
well-defined); with keys `10`, `2`, `1` the output lists them as `1, 2, 10`,
each as `[^N]: body` with one blank line between definitions. -/
theorem format_definitions_numeric_order :
    (∀ (l₁ l₂ : List (String × String)), l₁.Perm l₂ →
        (l₁.map (fun p => FootnoteConverter.keyVal p.1)).Nodup →
        FootnoteConverter.format_definitions l₁ = FootnoteConverter.format_definitions l₂) ∧
    FootnoteConverter.format_definitions [("10", "x"), ("2", "y"), ("1", "z")] =
      Except.ok "[^1]: z\n\n[^2]: y\n\n[^10]: x" := by
  constructor
  · exact FootnoteConverter.format_definitions_perm
  · decide

/-- Witness for C6: the permutation hypothesis discharged at a concrete
reordering. -/
theorem format_definitions_numeric_order_witness :
    FootnoteConverter.format_definitions [("2", "b"), ("1", "a")] =
      FootnoteConverter.format_definitions [("1", "a"), ("2", "b")] :=
  format_definitions_numeric_order.1 _ _ (by decide) (by decide)

/-- A table with header row `[A,B]` and two data rows, the shape named by the
round-trip table property. -/
def headerABTable : Node := .elem "table" [] [
  .elem "tr" [] [.elem "th" [] [.text "A"], .elem "th" [] [.text "B"]],
  .elem "tr" [] [.elem "td" [] [.text "1"], .elem "td" [] [.text "2"]],
  .elem "tr" [] [.elem "td" [] [.text "3"], .elem "td" [] [.text "4"]]]

/-- A notes container holding one footnote definition whose body has a text
child and an `em` element child. -/
def notesWithEmChild : Node := .elem "html" [] [
  .elem "div" [("id","notes")] [
    .elem "p" [("id","note-1")] [
      .text "plain ",
      .elem "em" [] [.text "emph"],
      .elem "a" [("href","#ref-1")] [.text "^"]]]]

/-- The same notes container with a text-only definition body. -/
def notesTextOnly : Node := .elem "html" [] [
  .elem "div" [("id","notes")] [
    .elem "p" [("id","note-1")] [
      .text "plain text only",
      .elem "a" [("href","#ref-1")] [.text "^"]]]]

/-- C1: the claim says a `[A,B]`-header table with two data rows converts to
four pipe-delimited lines without raising.  In the code, `_convert_cell`
(`tables.py:83`) calls `self._text_converter._convert_inline(cell)`, but
`TextConverter` defines only `convert_inline`; every cell conversion
therefore raises `AttributeError` and `TableConverter.convert` never
produces the four lines. -/
theorem table_convert_attribute_error :
    TableConverter.convert headerABTable = Except.error attributeErrorConvertInline ∧
    "_convert_inline" ∉ TextConverter.attributeNames ∧
    "convert_inline" ∈ TextConverter.attributeNames := by decide

/-- C2: the claim says footnote bodies are built from the children (back
reference anchors skipped, text kept, element children rendered as markup)
without raising.  Text children and the back-reference skip do work, but an
element child reaches `footnotes.py:80`, which calls
`self._text_converter._convert_inline(element)`; `TextConverter` has no such
attribute, so a definition containing an `em` child raises `AttributeError`
instead of rendering `*...*`. -/
theorem footnote_definitions_attribute_error :
    FootnoteConverter._extract_definitions notesWithEmChild =
      Except.error attributeErrorConvertInline ∧
    FootnoteConverter._extract_definitions notesTextOnly =
      Except.ok [("1", "plain text only")] ∧
    "_convert_inline" ∉ TextConverter.attributeNames := by decide

/-- C8: each missing-container case returns its empty value and never
raises: no main-content `div` gives `ok ""`, no notes container gives the
empty definition map, the empty map formats to `ok ""`, and no bibliography
heading gives `""`. -/
theorem missing_containers_empty_values :
    (∀ (ms : MathConverter.MacroTable) (soup : Node),
       SEPParser.findMainText soup = none →
       SEPParser.get_main_content ms soup = Except.ok "") ∧
    (∀ soup : Node,
       FootnoteConverter.findNotesSection soup = none →
       FootnoteConverter._extract_definitions soup = Except.ok []) ∧
    FootnoteConverter.format_definitions [] = Except.ok "" ∧
    (∀ soup : Node,
       SEPParser.findBibHeading none soup.childrenL = none →
       SEPParser.get_bibliography soup = "") := by
  refine ⟨?_, ?_, by decide, ?_⟩
  · intro ms soup h
    simp [SEPParser.get_main_content, h]
  · intro soup h
    simp [FootnoteConverter._extract_definitions, h]
  · intro soup h
    simp [SEPParser.get_bibliography, h]

/-- Witness for C8 at a concrete document with none of the containers. -/
theorem missing_containers_empty_values_witness :
    SEPParser.get_main_content [] (.elem "html" [] [.elem "p" [] [.text "x"]]) = Except.ok "" ∧
    FootnoteConverter._extract_definitions (.elem "html" [] [.elem "p" [] [.text "x"]]) = Except.ok [] ∧
    SEPParser.get_bibliography (.elem "html" [] [.elem "p" [] [.text "x"]]) = "" :=
  ⟨missing_containers_empty_values.1 [] _ (by rfl),
   missing_containers_empty_values.2.1 _ (by rfl),
   missing_containers_empty_values.2.2.2 _ (by rfl)⟩

/-- Spec-side transition of the section-exclusion state machine, written from
the spec's wording: a level-2 heading always resets the state to whether its
normalized name is excluded; an excluded level-3 heading switches to
excluding while a non-excluded one leaves the state unchanged; any other
child leaves the state unchanged. -/
def specNextSkip (skip : Bool) (c : Node) : Bool :=
  match c with
  | .text _ => skip
  | .elem t _ _ =>
    if t = "h2" then isExcludedName (normalizedHeading c)
    else if t = "h3" then (isExcludedName (normalizedHeading c) || skip)
    else skip

/-- Spec-side emission rule, written from the spec's wording: an excluded
heading is dropped, a non-excluded level-2 heading is always kept, any other
child is kept exactly when the state is not excluding. -/
def specEmitsChild (skip : Bool) (c : Node) : Bool :=
  match c with
  | .text _ => false
  | .elem t _ _ =>
    if t = "h2" then !isExcludedName (normalizedHeading c)
    else if t = "h3" then (!isExcludedName (normalizedHeading c) && !skip)
    else !skip

/-- The main-content container of the determinism example of the claim. -/
def exclusionExampleDoc : Node := .elem "html" [] [
  .elem "body" [] [
    .elem "div" [("id","main-text")] [
      .elem "h2" [] [.text "Intro"],
      .elem "p" [] [.text "A"],
      .elem "h2" [] [.text "Related Entries"],
      .elem "p" [] [.text "B"],
      .elem "h3" [] [.text "Sub"],
      .elem "p" [] [.text "C"],
      .elem "h2" [] [.text "More"],
      .elem "p" [] [.text "D"]]]]

/-- C3: on every child the accumulation loop of `get_main_content` steps the
skip state and emits exactly as the spec's state machine prescribes; and on
the children `[h2 Intro, p A, h2 Related Entries, p B, h3 Sub, p C, h2 More,
p D]` the output contains `A` and `D` and never `B` or `C`. -/
theorem section_exclusion_state_machine :
    (∀ (ms : MathConverter.MacroTable) (skip : Bool) (c : Node) (rest : List Node),
       SEPParser.mainLoop ms skip (c :: rest) =
         if specEmitsChild skip c then do
             let conv ← SEPParser._convert_element ms c
             let out ← SEPParser.mainLoop ms (specNextSkip skip c) rest
             pure (if conv ≠ "" then conv :: "" :: out else out)
         else SEPParser.mainLoop ms (specNextSkip skip c) rest) ∧
    (∃ out, SEPParser.get_main_content [] exclusionExampleDoc = Except.ok out ∧
       strContains out "A" = true ∧ strContains out "D" = true ∧
       strContains out "B" = false ∧ strContains out "C" = false) := by
  constructor
  · intro ms skip c rest
    cases c with
    | text s => simp [SEPParser.mainLoop, specEmitsChild, specNextSkip]
    | elem t a cs =>
      by_cases h2 : t = "h2"
      · subst h2
        by_cases hx : isExcludedName (normalizedHeading (Node.elem "h2" a cs)) = true
        · simp [SEPParser.mainLoop, specEmitsChild, specNextSkip, hx]
        · rw [Bool.not_eq_true] at hx
          simp [SEPParser.mainLoop, specEmitsChild, specNextSkip, hx]
      · by_cases h3 : t = "h3"
        · subst h3
          by_cases hx : isExcludedName (normalizedHeading (Node.elem "h3" a cs)) = true
          · simp [SEPParser.mainLoop, specEmitsChild, specNextSkip, h2, hx]
          · rw [Bool.not_eq_true] at hx
            simp [SEPParser.mainLoop, specEmitsChild, specNextSkip, h2, hx]
            cases skip <;> simp
        · cases skip <;>
            simp [SEPParser.mainLoop, specEmitsChild, specNextSkip, h2, h3]
  · exact ⟨"## Intro\n\nA\n\n## More\n\nD", by decide⟩

namespace MathConverter

/-- If a pass reports no change, nothing in the fold changed the text. -/
lemma onePass_fold_unchanged (ms : MacroTable) : ∀ (s : String) (b : Bool),
    (ms.foldl
      (fun acc rule =>
        let t' := applyRule acc.1 rule
        (t', acc.2 || (t' != acc.1))) (s, b)).2 = false →
    b = false ∧
    (ms.foldl
      (fun acc rule =>
        let t' := applyRule acc.1 rule
        (t', acc.2 || (t' != acc.1))) (s, b)).1 = s := by
  induction ms with
  | nil => intro s b h; exact ⟨h, rfl⟩
  | cons r ms ih =>
    intro s b h
    simp only [List.foldl_cons] at h ⊢
    obtain ⟨h1, h2⟩ := ih (applyRule s r) (b || (applyRule s r != s)) h
    simp only [Bool.or_eq_false_iff] at h1
    have he : applyRule s r = s := by
      have := h1.2
      simpa [bne] using this
    refine ⟨h1.1, ?_⟩
    rw [h2, he]

/-- The capped loop computes some iterate of the single-pass function, with
as many iterations as passes used. -/
lemma expandLoop_iter (ms : MacroTable) : ∀ (n : Nat) (t : String),
    ∃ k, k ≤ n ∧ expandLoop ms n t = (fun s => (onePass ms s).1)^[k] t := by
  intro n
  induction n with
  | zero => intro t; exact ⟨0, Nat.le_refl _, rfl⟩
  | succ n ih =>
    intro t
    by_cases hp : (onePass ms t).2 = true
    · obtain ⟨k, hk, he⟩ := ih (onePass ms t).1
      refine ⟨k + 1, by omega, ?_⟩
      rw [Function.iterate_succ_apply]
      simpa [expandLoop, hp] using he
    · rw [Bool.not_eq_true] at hp
      refine ⟨1, by omega, ?_⟩
      have h5 : expandLoop ms (n + 1) t =
          if (onePass ms t).2 = true then expandLoop ms n (onePass ms t).1
          else (onePass ms t).1 := rfl
      rw [h5, if_neg (by simp [hp])]
      simp

end MathConverter

/-- C4: macro expansion always terminates within the fixed bound of five
passes (its result is the `k`-th iterate of the single-pass function for
some `k ≤ 5`), a pass that changes nothing ends the iteration with the text
unchanged, and the circular macro pair `\a ↔ \b` deterministically returns
the partially-expanded string rather than raising or looping. -/
theorem macro_expansion_bounded :
    (∀ (ms : MathConverter.MacroTable) (t : String), ∃ k, k ≤ 5 ∧
       MathConverter._expand_macros ms t =
         (fun s => (MathConverter.onePass ms s).1)^[k] t) ∧
    (∀ (ms : MathConverter.MacroTable) (t : String),
       (MathConverter.onePass ms t).2 = false →
       MathConverter._expand_macros ms t = t) ∧
    MathConverter._expand_macros [("a", "\\b", 0), ("b", "\\a", 0)] "\\a" = "\\a" := by
  refine ⟨?_, ?_, by decide⟩
  · intro ms t
    by_cases he : ms.isEmpty
    · exact ⟨0, by omega, by simp [MathConverter._expand_macros, he]⟩
    · obtain ⟨k, hk, hi⟩ := MathConverter.expandLoop_iter ms 5 t
      exact ⟨k, hk, by simp [MathConverter._expand_macros, he, hi]⟩
  · intro ms t h
    by_cases he : ms.isEmpty
    · simp [MathConverter._expand_macros, he]
    · have h1 := MathConverter.onePass_fold_unchanged ms t false h
      unfold MathConverter._expand_macros
      rw [if_neg he]
      have h5 : MathConverter.expandLoop ms 5 t =
          if (MathConverter.onePass ms t).2 = true then
            MathConverter.expandLoop ms 4 (MathConverter.onePass ms t).1
          else (MathConverter.onePass ms t).1 := rfl
      rw [h5, if_neg (by simp [h])]
      exact h1.2

/-- Witness for C4 at a macro table whose single macro does not occur in the
input, so the first pass reports no change. -/
theorem macro_expansion_bounded_witness :
    MathConverter._expand_macros [("c", "d", 0)] "xyz" = "xyz" :=
  macro_expansion_bounded.2.1 [("c", "d", 0)] "xyz" (by decide)

/-- C5: brace-argument extraction is exact (the input is the opening brace,
the extracted content — with nested braces balanced and escaped characters
kept — the matching closing brace, then the returned remainder); when the
`N` argument groups cannot be extracted after a matched invocation, the
invocation text is emitted unchanged and the scan resumes immediately after
the macro name, expanding the remainder as if scanned afresh.  The concrete
cases show an escaped closing brace not terminating a group, nested braces
balanced, and a two-argument macro with an unbalanced second invocation
expanding the first and leaving the second untouched. -/
theorem macro_args_failure_resume :
    (∀ (l content rest : List Char),
       MathConverter._extract_brace_arg l = some (content, rest) →
       l = '{' :: content ++ '}' :: rest) ∧
    (∀ (name expansion : String) (num_args : Nat) (l pre afterName : List Char),
       MathConverter.findMacroMatch name.data l = some (pre, afterName) →
       MathConverter.extractArgs num_args afterName = none →
       MathConverter._expand_macro_with_args name expansion num_args l =
         pre ++ '\\' :: name.data ++
           MathConverter._expand_macro_with_args name expansion num_args afterName) ∧
    MathConverter._extract_brace_arg "\x7ba\\\x7db\x7dtail".data =
      some ("a\\\x7db".data, "tail".data) ∧
    MathConverter._extract_brace_arg "\x7ba\x7bb\x7dc\x7dd".data =
      some ("a\x7bb\x7dc".data, "d".data) ∧
    String.mk (MathConverter._expand_macro_with_args "pair" "(#1,#2)" 2
        "\\pair\x7ba\x7d\x7bb\x7d and \\pair\x7bu\x7d\x7bv".data) =
      "(a,b) and \\pair\x7bu\x7d\x7bv" := by
  refine ⟨MathConverter.extract_brace_arg_spec, ?_, by decide, by decide, by decide⟩
  intro name expansion num_args l pre afterName hfm hex
  have hlt := MathConverter.findMacroMatch_after_lt l name.data pre afterName hfm
  unfold MathConverter._expand_macro_with_args
  have h1 : MathConverter.expandMacroArgsF name expansion num_args (l.length + 1) l =
      pre ++ '\\' :: name.data ++
        MathConverter.expandMacroArgsF name expansion num_args l.length afterName := by
    simp [MathConverter.expandMacroArgsF, hfm, hex]
  rw [h1, MathConverter.expandMacroArgsF_fuel name expansion num_args l.length afterName
    (afterName.length + 1) (by omega) (by omega)]

/-- Witness for C5 at a concrete successful extraction. -/
theorem macro_args_failure_resume_witness :
    "\x7bab\x7dcd".data = '{' :: "ab".data ++ '}' :: "cd".data :=
  macro_args_failure_resume.1 "\x7bab\x7dcd".data "ab".data "cd".data (by decide)

/-- Does a character list start with a non-whitespace character? -/
def headCleanL (l : List Char) : Bool :=
  match l.head? with
  | some c => !isPySpace c
  | none => false

/-- Is a character list non-empty and free of trailing whitespace? -/
def endsCleanL (l : List Char) : Bool :=
  match l.getLast? with
  | some c => !isPySpace c
  | none => false

/-- A non-empty string that does not end in whitespace. -/
def endsCleanB (s : String) : Bool := endsCleanL s.data

/-- Spec-side (from the spec's wording): the blocks following the main
content — one `## Appendix <title>` block per appendix in list order, the
footnotes under `## Notes`, then the bibliography; absent sections
contribute nothing. -/
def tailBlocks (apps : List (List Char × List Char)) (fns bib : List Char) :
    List (List Char) :=
  apps.map (fun tb => appendixHeading tb.1 ++ '\n' :: '\n' :: tb.2)
  ++ (if fns ≠ [] then [notesHeading ++ '\n' :: '\n' :: fns] else [])
  ++ (if bib ≠ [] then [bib] else [])

/-- Spec-side (from the spec's wording): the present sections in the fixed
order preamble, main content, appendices, footnotes, bibliography. -/
def specSectionBlocksL (pre content : List Char)
    (apps : List (List Char × List Char)) (fns bib : List Char) :
    List (List Char) :=
  (if pre ≠ [] then [pre] else [])
  ++ (if content ≠ [] then [content] else [])
  ++ tailBlocks apps fns bib

/-- Spec-side (from the spec's wording): blocks separated by exactly one
blank line. -/
def sepBlankL : List (List Char) → List Char
  | [] => []
  | [b] => b
  | b :: c :: rest => b ++ '\n' :: '\n' :: sepBlankL (c :: rest)

/-- Spec-side (from the spec's wording): the whole document is the
frontmatter and the present sections in order, every adjacent pair
separated by exactly one blank line, with one trailing newline. -/
def specAssembledDoc (md : Metadata) (pre content : String)
    (apps : List (String × String)) (fns bib : String) : String :=
  String.mk (sepBlankL ((frontmatterCore md).data ::
    specSectionBlocksL pre.data content.data
      (apps.map (fun tb => (tb.1.data, tb.2.data))) fns.data bib.data) ++ ['\n'])

/-- The parts contributed by appendices, footnotes and bibliography. -/
def tailParts (apps : List (List Char × List Char)) (fns bib : List Char) :
    List (List Char) :=
  apps.flatMap (fun tb => [[], appendixHeading tb.1, [], tb.2])
  ++ (if fns ≠ [] then [[], notesHeading, [], fns] else [])
  ++ (if bib ≠ [] then [[], bib] else [])

lemma assembleParts_eq (fm pre content : List Char)
    (apps : List (List Char × List Char)) (fns bib : List Char) :
    assembleParts fm pre content apps fns bib =
      [fm] ++ (if pre ≠ [] then [pre, []] else [])
        ++ (if content ≠ [] then [content] else [])
        ++ tailParts apps fns bib := by
  simp [assembleParts, tailParts]

lemma sepBlankL_cons : ∀ (bs : List (List Char)) (b : List Char),
    sepBlankL (b :: bs) = b ++ bs.flatMap (fun x => '\n' :: '\n' :: x) := by
  intro bs
  induction bs with
  | nil => intro b; simp [sepBlankL]
  | cons c rest ih => intro b; simp [sepBlankL, ih c]

lemma pyJoinNLL_tail : ∀ (apps : List (List Char × List Char))
    (fns bib : List Char) (x : List Char),
    pyJoinNLL (x :: tailParts apps fns bib) =
      x ++ (tailBlocks apps fns bib).flatMap (fun b => '\n' :: '\n' :: b) := by
  intro apps
  induction apps with
  | nil =>
    intro fns bib x
    by_cases hf : fns = [] <;> by_cases hb : bib = [] <;>
      simp [tailParts, tailBlocks, hf, hb, pyJoinNLL]
  | cons tb apps ih =>
    intro fns bib x
    have h1 : tailParts (tb :: apps) fns bib =
        [] :: appendixHeading tb.1 :: [] :: tb.2 :: tailParts apps fns bib := by
      simp [tailParts]
    rw [h1]
    have h2 : pyJoinNLL (x :: [] :: appendixHeading tb.1 :: [] :: tb.2 ::
        tailParts apps fns bib) =
        x ++ '\n' :: ([] ++ '\n' :: (appendixHeading tb.1 ++ '\n' ::
          ([] ++ '\n' :: pyJoinNLL (tb.2 :: tailParts apps fns bib)))) := rfl
    rw [h2, ih fns bib tb.2]
    simp [tailBlocks]

lemma pyJoinNLL_main (fm pre content : List Char)
    (apps : List (List Char × List Char)) (fns bib : List Char)
    (hc : content ≠ []) :
    pyJoinNLL (assembleParts (fm ++ ['\n']) pre content apps fns bib) =
      sepBlankL (fm :: specSectionBlocksL pre content apps fns bib) := by
  rw [assembleParts_eq, sepBlankL_cons]
  by_cases hp : pre = []
  · have h1 : [fm ++ ['\n']] ++ (if pre ≠ [] then [pre, []] else [])
        ++ (if content ≠ [] then [content] else []) ++ tailParts apps fns bib =
        (fm ++ ['\n']) :: content :: tailParts apps fns bib := by
      simp [hp, hc]
    rw [h1]
    have h2 : pyJoinNLL ((fm ++ ['\n']) :: content :: tailParts apps fns bib) =
        (fm ++ ['\n']) ++ '\n' :: pyJoinNLL (content :: tailParts apps fns bib) := rfl
    rw [h2, pyJoinNLL_tail apps fns bib content]
    simp [specSectionBlocksL, hp, hc]
  · have h1 : [fm ++ ['\n']] ++ (if pre ≠ [] then [pre, []] else [])
        ++ (if content ≠ [] then [content] else []) ++ tailParts apps fns bib =
        (fm ++ ['\n']) :: pre :: [] :: content :: tailParts apps fns bib := by
      simp [hp, hc]
    rw [h1]
    have h2 : pyJoinNLL ((fm ++ ['\n']) :: pre :: [] :: content ::
        tailParts apps fns bib) =
        (fm ++ ['\n']) ++ '\n' :: (pre ++ '\n' :: ([] ++ '\n' ::
          pyJoinNLL (content :: tailParts apps fns bib))) := rfl
    rw [h2, pyJoinNLL_tail apps fns bib content]
    simp [specSectionBlocksL, hp, hc]

lemma frontmatterCore_data (md : Metadata) : (frontmatterCore md).data =
    "---\ntitle: ".data ++ (_quote_value md.title).data
    ++ "\nauthor: ".data ++ (_quote_value md.author).data
    ++ "\npublished: ".data ++ (_quote_value md.published).data
    ++ "\nrevised: ".data ++ (_quote_value md.revised).data
    ++ "\nurl: ".data ++ (_quote_value md.url).data
    ++ "\n---".data := by
  simp [frontmatterCore, joinNL, String.intercalate, String.intercalate.go,
    String.data_append]

lemma endsCleanL_append (a b : List Char) (hb : endsCleanL b = true) :
    endsCleanL (a ++ b) = true := by
  unfold endsCleanL at hb ⊢
  cases hgl : b.getLast? with
  | none => rw [hgl] at hb; exact absurd hb (by simp)
  | some c =>
    rw [hgl] at hb
    rw [List.getLast?_append, hgl]
    simpa using hb

lemma headCleanL_append (a b : List Char) (ha : headCleanL a = true) :
    headCleanL (a ++ b) = true := by
  cases a with
  | nil => exact absurd ha (by simp [headCleanL])
  | cons x xs => simpa [headCleanL] using ha

lemma sepBlankL_endsClean : ∀ (bs : List (List Char)), bs ≠ [] →
    (∀ b ∈ bs, endsCleanL b = true) → endsCleanL (sepBlankL bs) = true := by
  intro bs
  induction bs with
  | nil => intro h; exact absurd rfl h
  | cons b rest ih =>
    intro _ hall
    cases rest with
    | nil => simpa [sepBlankL] using hall b (by simp)
    | cons c rest2 =>
      have hr := ih (by simp) (fun x hx => hall x (List.mem_cons_of_mem _ hx))
      have h1 : sepBlankL (b :: c :: rest2) =
          (b ++ ['\n', '\n']) ++ sepBlankL (c :: rest2) := by
        simp [sepBlankL]
      rw [h1]
      exact endsCleanL_append _ _ hr

lemma dropWhile_eq_self_of_headClean (l : List Char) (hh : headCleanL l = true) :
    l.dropWhile isPySpace = l := by
  cases l with
  | nil => rfl
  | cons x xs =>
    simp only [headCleanL, List.head?_cons, Bool.not_eq_true'] at hh
    rw [List.dropWhile_cons, hh]
    simp

lemma pyStripL_id (l : List Char) (hh : headCleanL l = true)
    (he : endsCleanL l = true) : pyStripL l = l := by
  unfold pyStripL
  rw [dropWhile_eq_self_of_headClean l hh]
  have h2 : headCleanL l.reverse = true := by
    unfold headCleanL
    rw [List.head?_reverse]
    unfold endsCleanL at he
    exact he
  rw [dropWhile_eq_self_of_headClean l.reverse h2, List.reverse_reverse]

lemma specSectionBlocksL_endsClean (pre content : List Char)
    (apps : List (List Char × List Char)) (fns bib : List Char)
    (hc : endsCleanL content = true)
    (hp : pre = [] ∨ endsCleanL pre = true)
    (ha : ∀ tb ∈ apps, endsCleanL tb.2 = true)
    (hf : fns = [] ∨ endsCleanL fns = true)
    (hb : bib = [] ∨ endsCleanL bib = true) :
    ∀ b ∈ specSectionBlocksL pre content apps fns bib, endsCleanL b = true := by
  intro b hmem
  simp only [specSectionBlocksL, tailBlocks, List.mem_append] at hmem
  rcases hmem with (hm | hm) | (hm | hm) | hm
  · rcases hp with hp | hp
    · rw [hp] at hm; simp at hm
    · have hne : pre ≠ [] := by
        intro h0; rw [h0] at hp; exact absurd hp (by simp [endsCleanL])
      rw [if_pos hne] at hm
      simp at hm
      rwa [hm]
  · have hne : content ≠ [] := by
      intro h0; rw [h0] at hc; exact absurd hc (by simp [endsCleanL])
    rw [if_pos hne] at hm
    simp at hm
    rwa [hm]
  · simp only [List.mem_map] at hm
    obtain ⟨tb, htb, hbe⟩ := hm
    rw [← hbe, show appendixHeading tb.1 ++ '\n' :: '\n' :: tb.2 =
      (appendixHeading tb.1 ++ ['\n', '\n']) ++ tb.2 from by simp]
    exact endsCleanL_append _ _ (ha tb htb)
  · rcases hf with hf | hf
    · rw [hf] at hm; simp at hm
    · have hne : fns ≠ [] := by
        intro h0; rw [h0] at hf; exact absurd hf (by simp [endsCleanL])
      rw [if_pos hne] at hm
      simp at hm
      rw [hm, show notesHeading ++ '\n' :: '\n' :: fns =
        (notesHeading ++ ['\n', '\n']) ++ fns from by simp]
      exact endsCleanL_append _ _ hf
  · rcases hb with hb | hb
    · rw [hb] at hm; simp at hm
    · have hne : bib ≠ [] := by
        intro h0; rw [h0] at hb; exact absurd hb (by simp [endsCleanL])
      rw [if_pos hne] at hm
      simp at hm
      rwa [hm]

/-- C7 counterexample: with empty main content and an appendix present,
`assemble_markdown` emits two consecutive blank lines between the
frontmatter and the appendix heading, contradicting the claim that every
adjacent pair of present sections is separated by exactly one blank line
with no stray blank-line artifacts from absent sections. -/
theorem assemble_markdown_blank_line_violation :
    strContains
      (assemble_markdown ⟨none, none, none, none, some "u"⟩ "" "" "" [("T", "body")] "")
      "\n\n\n" = true := by decide

/-- C7 (amended): provided the main content is non-empty and no present
section body has trailing whitespace, `assemble_markdown` produces exactly
the frontmatter and the present sections in the fixed order preamble,
content, appendices (each `## Appendix <title>` with its body), `## Notes`
with the footnotes, then the bibliography, every adjacent pair separated by
exactly one blank line, absent sections contributing nothing, and exactly
one trailing newline. -/
theorem assemble_markdown_sections_amended (md : Metadata) (pre content : String)
    (apps : List (String × String)) (fns bib : String)
    (hcontent : endsCleanB content = true)
    (hpre : pre = "" ∨ endsCleanB pre = true)
    (happs : ∀ p ∈ apps, endsCleanB p.2 = true)
    (hfns : fns = "" ∨ endsCleanB fns = true)
    (hbib : bib = "" ∨ endsCleanB bib = true) :
    assemble_markdown md content fns bib apps pre =
      specAssembledDoc md pre content apps fns bib := by
  unfold assemble_markdown specAssembledDoc
  have hc' : content.data ≠ [] := by
    intro h0
    unfold endsCleanB endsCleanL at hcontent
    rw [h0] at hcontent
    exact absurd hcontent (by simp)
  have hfm : (format_frontmatter md).data = (frontmatterCore md).data ++ ['\n'] := by
    simp [format_frontmatter]
  rw [hfm, pyJoinNLL_main _ _ _ _ _ _ hc']
  have hhead : headCleanL (sepBlankL ((frontmatterCore md).data ::
      specSectionBlocksL pre.data content.data
        (apps.map (fun tb => (tb.1.data, tb.2.data))) fns.data bib.data)) = true := by
    rw [sepBlankL_cons, frontmatterCore_data md]
    repeat apply headCleanL_append
    decide
  have hlast : endsCleanL (sepBlankL ((frontmatterCore md).data ::
      specSectionBlocksL pre.data content.data
        (apps.map (fun tb => (tb.1.data, tb.2.data))) fns.data bib.data)) = true := by
    apply sepBlankL_endsClean _ (by simp)
    intro b hbm
    rcases List.mem_cons.mp hbm with hbm | hbm
    · rw [hbm, frontmatterCore_data md]
      exact endsCleanL_append _ _ (by decide)
    · refine specSectionBlocksL_endsClean _ _ _ _ _ hcontent ?_ ?_ ?_ ?_ b hbm
      · rcases hpre with h | h
        · exact Or.inl (by simp [h])
        · exact Or.inr h
      · intro tb htb
        simp only [List.mem_map] at htb
        obtain ⟨p, hp2, hpe⟩ := htb
        rw [← hpe]
        exact happs p hp2
      · rcases hfns with h | h
        · exact Or.inl (by simp [h])
        · exact Or.inr h
      · rcases hbib with h | h
        · exact Or.inl (by simp [h])
        · exact Or.inr h
  rw [pyStripL_id _ hhead hlast]

/-- Witness for the amended C7 with all sections present. -/
theorem assemble_markdown_sections_amended_witness :
    assemble_markdown ⟨none, none, none, none, none⟩ "c" "n" "b" [("T", "x")] "p" =
      specAssembledDoc ⟨none, none, none, none, none⟩ "p" "c" [("T", "x")] "n" "b" :=
  assemble_markdown_sections_amended ⟨none, none, none, none, none⟩ "p" "c" [("T", "x")] "n" "b"
    (by decide) (Or.inr (by decide)) (by decide) (Or.inr (by decide)) (Or.inr (by decide))
